import Mathlib

/-!
Verification of the `loco` ontology store and reasoner
(`src/ontology/entities.rs`, `src/ontology/value_objects.rs`,
`src/ontology/service.rs`).

The Rust data model is shallowly embedded: `BTreeSet<Iri>` becomes a list
kept in ascending order, `BTreeMap<Iri, V>` (always keyed by the value's own
`id`) becomes a list of values looked up by `id`, and every fallible
operation returns the error together with the resulting state so that
atomicity of failed mutations is an actual statement about the embedding.
The worklist traversals of the reasoner are embedded with an explicit fuel
argument; fuel adequacy is proved separately, so termination of the Rust
loops is a theorem rather than an assumption.
-/

namespace Loco

/-- `Iri` value objects wrap a validated string; ordering and equality are the
string ones (`value_objects.rs`). -/
abbrev Iri := String

/-- `PropertyKind` from `entities.rs`. -/
inductive PropertyKind where
  | Object
  | Data
deriving DecidableEq, Repr

/-- `PropertyAssertion` from `entities.rs`. -/
inductive PropertyAssertion where
  | Individual (target : Iri)
  | Literal (value : String)
deriving DecidableEq, Repr

/-- `Class` from `entities.rs`; `super_classes` models the `BTreeSet<Iri>`
(ascending, duplicate-free in well-formed data). -/
structure Class where
  id : Iri
  label : Option String := none
  comment : Option String := none
  super_classes : List Iri := []
deriving DecidableEq, Repr

/-- `Property` from `entities.rs`. -/
structure Property where
  id : Iri
  label : Option String := none
  kind : PropertyKind
  domains : List Iri := []
  ranges : List Iri := []
deriving DecidableEq, Repr

/-- `Individual` from `entities.rs`; `properties` models the
`BTreeMap<Iri, Vec<PropertyAssertion>>` as an association list. -/
structure Individual where
  id : Iri
  types : List Iri := []
  properties : List (Iri × List PropertyAssertion) := []
deriving DecidableEq, Repr

/-- `Ontology` aggregate from `entities.rs`; each `BTreeMap<Iri, V>` is a list
of values that is looked up via the value's own `id` field (the Rust maps are
always keyed by exactly that field). -/
structure Ontology where
  id : Iri
  label : Option String := none
  classes : List Class := []
  properties : List Property := []
  individuals : List Individual := []
deriving DecidableEq, Repr

/-- `OntologyError` from `entities.rs`. -/
inductive OntologyError where
  | DuplicateClass (id : Iri)
  | DuplicateProperty (id : Iri)
  | DuplicateIndividual (id : Iri)
  | MissingClass (ontology cls : Iri)
  | MissingProperty (ontology property : Iri)
  | InvalidPropertyAssertion (ontology property : Iri)
deriving DecidableEq, Repr

/-- `OntologyServiceError` from `service.rs` (the seed-IO variant concerns
file-system access and is outside the embedded fragment). -/
inductive OntologyServiceError where
  | Duplicate (ontology : Iri)
  | Missing (ontology : Iri)
  | MissingClass (ontology cls : Iri)
  | MissingProperty (ontology property : Iri)
  | MissingIndividual (ontology individual : Iri)
  | Domain (e : OntologyError)
deriving DecidableEq, Repr

/-- `Ontology::class` (`BTreeMap::get` on a map keyed by class id). -/
def Ontology.getClass (o : Ontology) (id : Iri) : Option Class :=
  o.classes.find? (fun c => c.id == id)

/-- `Ontology::property`. -/
def Ontology.getProperty (o : Ontology) (id : Iri) : Option Property :=
  o.properties.find? (fun p => p.id == id)

/-- `Ontology::individual`. -/
def Ontology.getIndividual (o : Ontology) (id : Iri) : Option Individual :=
  o.individuals.find? (fun i => i.id == id)

/-- `BTreeMap::insert` on an id-keyed map whose key is known to be absent:
insert in ascending id order. -/
def insertByKey (key : α → Iri) (x : α) : List α → List α
  | [] => [x]
  | y :: ys => if key x < key y then x :: y :: ys else y :: insertByKey key x ys

/-- First element of `l` denoting a class unknown to `o` (the first iteration
of the Rust `for` loops that validate class references). -/
def firstUnknownClass (o : Ontology) (l : List Iri) : Option Iri :=
  l.find? (fun c => (o.getClass c).isNone)

/-- `Ontology::add_class`: mutation returning the error (if any) together with
the resulting aggregate state. -/
def Ontology.add_class (o : Ontology) (c : Class) :
    Option OntologyError × Ontology :=
  if (o.getClass c.id).isSome then
    (some (.DuplicateClass c.id), o)
  else
    (none, { o with classes := insertByKey Class.id c o.classes })

/-- `Ontology::add_property`. -/
def Ontology.add_property (o : Ontology) (p : Property) :
    Option OntologyError × Ontology :=
  if (o.getProperty p.id).isSome then
    (some (.DuplicateProperty p.id), o)
  else
    match firstUnknownClass o p.domains with
    | some cl => (some (.MissingClass o.id cl), o)
    | none =>
      match firstUnknownClass o p.ranges with
      | some cl => (some (.MissingClass o.id cl), o)
      | none => (none, { o with properties := insertByKey Property.id p o.properties })

/-- The `match (property.kind(), assertion)` arms of `Ontology::add_individual`. -/
def assertionMatches (k : PropertyKind) (a : PropertyAssertion) : Bool :=
  match k, a with
  | .Object, .Individual _ => true
  | .Data, .Literal _ => true
  | _, _ => false

/-- The property-assertion validation loop of `Ontology::add_individual`:
first error raised while walking the assertion map in order. -/
def checkAssertionLists (o : Ontology) :
    List (Iri × List PropertyAssertion) → Option OntologyError
  | [] => none
  | (pid, asserts) :: rest =>
    match o.getProperty pid with
    | none => some (.MissingProperty o.id pid)
    | some p =>
      match asserts.find? (fun a => !assertionMatches p.kind a) with
      | some _ => some (.InvalidPropertyAssertion o.id pid)
      | none => checkAssertionLists o rest

/-- `Ontology::add_individual`. -/
def Ontology.add_individual (o : Ontology) (ind : Individual) :
    Option OntologyError × Ontology :=
  if (o.getIndividual ind.id).isSome then
    (some (.DuplicateIndividual ind.id), o)
  else
    match firstUnknownClass o ind.types with
    | some cl => (some (.MissingClass o.id cl), o)
    | none =>
      match checkAssertionLists o ind.properties with
      | some e => (some e, o)
      | none => (none, { o with individuals := insertByKey Individual.id ind o.individuals })

/-- The `BTreeMap<Iri, Ontology>` held by `InMemoryStore`. -/
abbrev Store := List (Iri × Ontology)

/-- In-place update of the (unique) entry stored under `id`
(`BTreeMap::get_mut` followed by mutation of the entry). -/
def storeSet : Store → Iri → Ontology → Store
  | [], _, _ => []
  | (k, v) :: rest, id, o => if k == id then (k, o) :: rest else (k, v) :: storeSet rest id o

/-- `InMemoryOntologyRepository::attach_class`. -/
def attach_class (store : Store) (ontology : Iri) (c : Class) :
    Option OntologyServiceError × Store :=
  match store.lookup ontology with
  | none => (some (.Missing ontology), store)
  | some o =>
    match o.add_class c with
    | (some e, o2) => (some (.Domain e), storeSet store ontology o2)
    | (none, o2) => (none, storeSet store ontology o2)

/-- `InMemoryOntologyRepository::attach_property`. -/
def attach_property (store : Store) (ontology : Iri) (p : Property) :
    Option OntologyServiceError × Store :=
  match store.lookup ontology with
  | none => (some (.Missing ontology), store)
  | some o =>
    match o.add_property p with
    | (some e, o2) => (some (.Domain e), storeSet store ontology o2)
    | (none, o2) => (none, storeSet store ontology o2)

/-- `InMemoryOntologyRepository::attach_individual`. -/
def attach_individual (store : Store) (ontology : Iri) (ind : Individual) :
    Option OntologyServiceError × Store :=
  match store.lookup ontology with
  | none => (some (.Missing ontology), store)
  | some o =>
    match o.add_individual ind with
    | (some e, o2) => (some (.Domain e), storeSet store ontology o2)
    | (none, o2) => (none, storeSet store ontology o2)

/-- The `reasoner.inference` toggles (`config` settings consumed by
`service.rs`). -/
structure InferenceSettings where
  class_hierarchy : Bool
  property_assertions : Bool
  property_paths : Bool
deriving DecidableEq, Repr

/-- `ReasonerSettings` as consumed by `InMemoryReasoner`. -/
structure ReasonerSettings where
  inference : InferenceSettings
deriving DecidableEq, Repr

/-- The worklist of `InMemoryReasoner::ancestors_of`, with explicit fuel
(`none` marks fuel exhaustion; fuel adequacy is proved below). One step pops
the queue front, and on first visit records the identifier and enqueues the
declared parents of the popped class, exactly as in `service.rs`. -/
def ancestorsLoop (o : Ontology) (fuel : Nat) (queue visited result : List Iri) :
    Option (List Iri) :=
  match queue with
  | [] => some result
  | current :: rest =>
    match fuel with
    | 0 => none
    | fuel + 1 =>
      if current ∈ visited then
        ancestorsLoop o fuel rest visited result
      else
        match o.getClass current with
        | some cls =>
          ancestorsLoop o fuel (rest ++ cls.super_classes) (current :: visited)
            (result ++ [current])
        | none =>
          ancestorsLoop o fuel rest (current :: visited) (result ++ [current])

/-- Fuel sufficient for `ancestorsLoop` starting from queue `q`: one step per
initial queue element plus one per declared parent edge in the ontology. -/
def ancestorsFuel (o : Ontology) (q : List Iri) : Nat :=
  q.length + (o.classes.map (fun c => c.super_classes.length)).sum

/-- `InMemoryReasoner::ancestors_of`. -/
def ancestors_of (settings : ReasonerSettings) (store : Store) (ontology cls : Iri) :
    Except OntologyServiceError (List Iri) :=
  if !settings.inference.class_hierarchy then .ok []
  else
    match store.lookup ontology with
    | none => .error (.Missing ontology)
    | some o =>
      match o.getClass cls with
      | none => .error (.MissingClass o.id cls)
      | some start =>
        match ancestorsLoop o (ancestorsFuel o start.super_classes)
            start.super_classes [] [] with
        | some r => .ok r
        | none => .ok []

/-- `InMemoryReasoner::descendants_of`. -/
def descendants_of (settings : ReasonerSettings) (store : Store) (ontology cls : Iri) :
    Except OntologyServiceError (List Iri) :=
  if !settings.inference.class_hierarchy then .ok []
  else
    match store.lookup ontology with
    | none => .error (.Missing ontology)
    | some o =>
      match o.getClass cls with
      | none => .error (.MissingClass o.id cls)
      | some _ => .ok ((o.classes.filter (fun c => cls ∈ c.super_classes)).map Class.id)

/-- The `Individual`-variant target of an assertion, if any. -/
def assertionTarget : PropertyAssertion → Option Iri
  | .Individual t => some t
  | .Literal _ => none

/-- `InMemoryReasoner::related_individuals`. -/
def related_individuals (settings : ReasonerSettings) (store : Store)
    (ontology via_property individual : Iri) :
    Except OntologyServiceError (List Iri) :=
  if !settings.inference.property_assertions then .ok []
  else
    match store.lookup ontology with
    | none => .error (.Missing ontology)
    | some o =>
      if (o.getProperty via_property).isNone then
        .error (.MissingProperty o.id via_property)
      else
        match o.getIndividual individual with
        | none => .error (.MissingIndividual o.id individual)
        | some ind =>
          .ok (((ind.properties.lookup via_property).getD []).filterMap assertionTarget)

/-- The `if let Some(property) = ontology.property(..)` guard inside
`shortest_path`: an assertion list is expanded unless its property is known
and of a kind other than `Object`. -/
def propAllowed (o : Ontology) (pid : Iri) : Bool :=
  match o.getProperty pid with
  | some p => p.kind == .Object
  | none => true

/-- A breadth-first queue entry of `shortest_path`: a node together with the
path that discovered it. -/
abbrev Entry := Iri × List Iri

/-- The inner assertion loop of `shortest_path`: mark unvisited `Individual`
targets visited and enqueue them with the extended path. -/
def expandAssertions (path : List Iri) (acc : List Iri × List Entry) :
    List PropertyAssertion → List Iri × List Entry
  | [] => acc
  | a :: rest =>
    match a with
    | .Individual next =>
      if next ∈ acc.1 then expandAssertions path acc rest
      else expandAssertions path (next :: acc.1, acc.2 ++ [(next, path ++ [next])]) rest
    | .Literal _ => expandAssertions path acc rest

/-- The property loop of `shortest_path` (`pa` is the value of the
`property_assertions` toggle read by the loop): each assertion list is skipped
when the toggle is off, or when the property is known with a kind other than
`Object`; otherwise its assertions are expanded. -/
def expandProps (pa : Bool) (o : Ontology) (path : List Iri)
    (acc : List Iri × List Entry) :
    List (Iri × List PropertyAssertion) → List Iri × List Entry
  | [] => acc
  | pr :: rest =>
    if !pa then expandProps pa o path acc rest
    else if propAllowed o pr.1 then
      expandProps pa o path (expandAssertions path acc pr.2) rest
    else expandProps pa o path acc rest

/-- The breadth-first loop of `shortest_path`, with explicit fuel. The outer
`Option` marks fuel exhaustion; the inner one is the Rust return value. -/
def pathLoop (pa : Bool) (o : Ontology) (goal : Iri) :
    Nat → List Iri → List Entry → Option (Option (List Iri))
  | _, _, [] => some none
  | 0, _, _ :: _ => none
  | fuel + 1, visited, (current, path) :: rest =>
    if current == goal then some (some path)
    else
      match o.getIndividual current with
      | some ind =>
        let vq := expandProps pa o path (visited, rest) ind.properties
        pathLoop pa o goal fuel vq.1 vq.2
      | none => pathLoop pa o goal fuel visited rest

/-- Every `Individual`-variant assertion target occurring in the ontology
(with multiplicity); bounds the number of breadth-first discoveries. -/
def allTargets (o : Ontology) : List Iri :=
  (o.individuals.map (fun ind =>
    (ind.properties.map (fun pr => pr.2.filterMap assertionTarget)).flatten)).flatten

/-- Fuel sufficient for `pathLoop`: one per possible discovery plus one for
the initial entry. -/
def pathFuel (o : Ontology) : Nat :=
  (allTargets o).length + 1

/-- `InMemoryReasoner::shortest_path`. -/
def shortest_path (settings : ReasonerSettings) (store : Store)
    (ontology start goal : Iri) :
    Except OntologyServiceError (Option (List Iri)) :=
  if !settings.inference.property_paths then .ok none
  else
    match store.lookup ontology with
    | none => .error (.Missing ontology)
    | some o =>
      match o.getIndividual start with
      | none => .error (.MissingIndividual o.id start)
      | some source =>
        if (o.getIndividual goal).isNone then .error (.MissingIndividual o.id goal)
        else
          match pathLoop settings.inference.property_assertions o goal (pathFuel o)
              [source.id] [(source.id, [source.id])] with
          | some r => .ok r
          | none => .ok none

/-! ### Derived notions used by the specification statements -/

/-- Declared-parent relation of an ontology: `b` is a declared parent of the
class stored under `a`. -/
def parentOf (o : Ontology) (a b : Iri) : Prop :=
  ∃ cls, o.getClass a = some cls ∧ b ∈ cls.super_classes

/-- Measure for the termination of `ancestorsLoop`: total number of declared
parent edges of classes not yet visited. -/
def remSum (o : Ontology) (visited : List Iri) : Nat :=
  ((o.classes.filter (fun c => c.id ∉ visited)).map
    (fun c => c.super_classes.length)).sum

/-- Edge relation actually traversed by `shortest_path` when the
`property_assertions` toggle is on: an `Individual`-variant assertion whose
property is not known to be of a kind other than `Object`. -/
def objectEdge (o : Ontology) (a b : Iri) : Prop :=
  ∃ ind pr, o.getIndividual a = some ind ∧ pr ∈ ind.properties ∧
    propAllowed o pr.1 = true ∧ PropertyAssertion.Individual b ∈ pr.2

/-- Edge relation of the specification: an `Individual`-variant assertion
stored under a property of kind `Object`. -/
def objectPropEdge (o : Ontology) (a b : Iri) : Prop :=
  ∃ ind pr p, o.getIndividual a = some ind ∧ pr ∈ ind.properties ∧
    o.getProperty pr.1 = some p ∧ p.kind = .Object ∧
    PropertyAssertion.Individual b ∈ pr.2

/-- `p` is a non-empty `r`-path from `s` to `e`, inclusive of both
endpoints. -/
def IsPath (r : Iri → Iri → Prop) (s e : Iri) (p : List Iri) : Prop :=
  p.head? = some s ∧ p.getLast? = some e ∧ p.Chain' r

/-- Every property assertion list of every individual is stored under a
property that exists in the ontology. `Ontology::add_individual` validates
exactly this, so it holds of every stored aggregate. -/
def WFassert (o : Ontology) : Prop :=
  ∀ ind ∈ o.individuals, ∀ pr ∈ ind.properties, (o.getProperty pr.1).isSome = true

/-- Measure for the termination of `pathLoop`: number of assertion targets not
yet visited (with multiplicity). -/
def cntUnvisited (o : Ontology) (visited : List Iri) : Nat :=
  (allTargets o).countP (fun t => decide (t ∉ visited))

/-- Invariant of the breadth-first loop of `shortest_path` (with the
`property_assertions` toggle on): queue entries carry genuine paths of
minimal length, lengths are sorted and span at most two consecutive values,
every node reachable at least as fast as every queued entry is already
visited, visited nodes are either still queued or fully expanded, and the
goal, once visited, is still queued. -/
structure BfsInv (o : Ontology) (start goal : Iri) (visited : List Iri)
    (queue : List Entry) : Prop where
  paths : ∀ e ∈ queue, IsPath (objectEdge o) start e.1 e.2
  lenSorted : queue.Pairwise (fun a b => a.2.length ≤ b.2.length)
  twoLevel : ∀ a ∈ queue, ∀ b ∈ queue, a.2.length ≤ b.2.length + 1
  optimal : ∀ e ∈ queue, ∀ q, IsPath (objectEdge o) start e.1 q →
    e.2.length ≤ q.length
  frontier : ∀ z p, IsPath (objectEdge o) start z p →
    (∀ e ∈ queue, p.length ≤ e.2.length) → z ∈ visited
  inVisited : ∀ e ∈ queue, e.1 ∈ visited
  closure : ∀ v ∈ visited,
    (∃ e ∈ queue, e.1 = v) ∨ (∀ n, objectEdge o v n → n ∈ visited)
  startVisited : start ∈ visited
  goalQueued : goal ∈ visited → ∃ e ∈ queue, e.1 = goal

/-! ### Concrete fixtures

Small stored ontologies used to instantiate the theorems below. They mirror
the aggregates built by the repository's own tests: a class chain
Base ← Derived ← Specialized, and an individuals graph with an object
property `link` and a data property `age`. -/

/-- All three inference toggles on. -/
def allOn : ReasonerSettings := { inference := { class_hierarchy := true, property_assertions := true, property_paths := true } }

/-- `class_hierarchy` off, the other toggles on. -/
def chOff : ReasonerSettings := { inference := { class_hierarchy := false, property_assertions := true, property_paths := true } }

/-- `property_assertions` off, the other toggles on. -/
def paOff : ReasonerSettings := { inference := { class_hierarchy := true, property_assertions := false, property_paths := true } }

/-- `property_paths` off, the other toggles on. -/
def ppOff : ReasonerSettings := { inference := { class_hierarchy := true, property_assertions := true, property_paths := false } }

/-- The chain ontology: `Derived`'s parent is `Base`, `Specialized`'s parent
is `Derived`. -/
def chainO : Ontology :=
  { id := "https://example.org/onto"
    classes :=
      [ { id := "https://example.org/Base" }
      , { id := "https://example.org/Derived", super_classes := ["https://example.org/Base"] }
      , { id := "https://example.org/Specialized", super_classes := ["https://example.org/Derived"] } ] }

/-- Store holding only the chain ontology. -/
def chainStore : Store := [("https://example.org/onto", chainO)]

/-- Ontology whose ancestor traversal discovers identifiers out of lexical
order: `C`'s parent is `Z` and `Z`'s parent is `A`. -/
def unsortedO : Ontology :=
  { id := "https://example.org/onto"
    classes :=
      [ { id := "https://example.org/A" }
      , { id := "https://example.org/C", super_classes := ["https://example.org/Z"] }
      , { id := "https://example.org/Z", super_classes := ["https://example.org/A"] } ] }

/-- Store holding only `unsortedO`. -/
def unsortedStore : Store := [("https://example.org/onto", unsortedO)]

/-- Data property `age` over `Person`. -/
def ageProp : Property :=
  { id := "https://example.org/age", kind := .Data
    domains := ["https://example.org/Person"] }

/-- Object property `link` over `Person`. -/
def linkProp : Property :=
  { id := "https://example.org/link", kind := .Object
    domains := ["https://example.org/Person"]
    ranges := ["https://example.org/Person"] }

/-- `alice` asserts `age` to a literal and `link` to `bob`. -/
def aliceInd : Individual :=
  { id := "https://example.org/alice"
    types := ["https://example.org/Person"]
    properties :=
      [ ("https://example.org/age", [.Literal "30"])
      , ("https://example.org/link", [.Individual "https://example.org/bob"]) ] }

/-- `bob` carries no assertions. -/
def bobInd : Individual :=
  { id := "https://example.org/bob", types := ["https://example.org/Person"] }

/-- `carol` is disconnected from `alice` and `bob`. -/
def carolInd : Individual :=
  { id := "https://example.org/carol", types := ["https://example.org/Person"] }

/-- Individuals graph: `alice` asserts the object property `link` to `bob`
and the data property `age` to a literal; `carol` is disconnected. -/
def peopleO : Ontology :=
  { id := "https://example.org/onto"
    classes := [ { id := "https://example.org/Person" } ]
    properties := [ageProp, linkProp]
    individuals := [aliceInd, bobInd, carolInd] }

/-- Store holding only `peopleO`. -/
def peopleStore : Store := [("https://example.org/onto", peopleO)]

/-- A class whose identifier collides with one stored in `chainO`. -/
def dupBaseClass : Class := { id := "https://example.org/Base" }

/-- A property whose domain names a class unknown to `chainO`. -/
def badDomainProp : Property :=
  { id := "https://example.org/p", kind := .Object
    domains := ["https://example.org/Unknown"] }

/-- An individual carrying an `Individual`-variant assertion under the data
property `age` of `peopleO` (a kind mismatch). -/
def badAssertIndividual : Individual :=
  { id := "https://example.org/dave"
    types := ["https://example.org/Person"]
    properties := [("https://example.org/age", [.Individual "https://example.org/bob"])] }

/-! ### Basic lemmas about the lookups -/

theorem getClass_id {o : Ontology} {i : Iri} {c : Class}
    (h : o.getClass i = some c) : c.id = i := by
  have hp := List.find?_some h
  exact eq_of_beq hp

theorem getProperty_id {o : Ontology} {i : Iri} {p : Property}
    (h : o.getProperty i = some p) : p.id = i := by
  have hp := List.find?_some h
  exact eq_of_beq hp

theorem getIndividual_id {o : Ontology} {i : Iri} {ind : Individual}
    (h : o.getIndividual i = some ind) : ind.id = i := by
  have hp := List.find?_some h
  exact eq_of_beq hp

theorem getClass_mem {o : Ontology} {i : Iri} {c : Class}
    (h : o.getClass i = some c) : c ∈ o.classes :=
  List.mem_of_find?_eq_some h

theorem getIndividual_mem {o : Ontology} {i : Iri} {ind : Individual}
    (h : o.getIndividual i = some ind) : ind ∈ o.individuals :=
  List.mem_of_find?_eq_some h

theorem storeSet_lookup_self {ont : Iri} {o : Ontology} :
    ∀ store : Store, store.lookup ont = some o → storeSet store ont o = store := by
  intro store h
  induction store with
  | nil => simp [List.lookup] at h
  | cons kv rest ih =>
    obtain ⟨k, v⟩ := kv
    by_cases hk : ont = k
    · subst hk
      have hv : v = o := by simpa [List.lookup] using h
      subst hv
      simp [storeSet]
    · have hk2 : (ont == k) = false := beq_eq_false_iff_ne.mpr hk
      have hrest : rest.lookup ont = some o := by simpa [List.lookup, hk2] using h
      have hk3 : (k == ont) = false := beq_eq_false_iff_ne.mpr (Ne.symm hk)
      simp [storeSet, hk3, ih hrest]

/-! ### Toggle behaviour (claims C6 and C10) -/

/-- Claim C6: when the governing feature toggle of a reasoning query is off,
the query returns an empty result (`ok []`, or `ok none` for
`shortest_path`) rather than an error, for arbitrary input; in particular
`class_hierarchy = false` makes `ancestors_of` and `descendants_of` return
empty vectors. -/
theorem toggles_off_give_empty_results
    (s1 s2 s3 : ReasonerSettings) (store : Store) (ont cls prop indiv a b : Iri)
    (h1 : s1.inference.class_hierarchy = false)
    (h2 : s2.inference.property_assertions = false)
    (h3 : s3.inference.property_paths = false) :
    ancestors_of s1 store ont cls = .ok [] ∧
    descendants_of s1 store ont cls = .ok [] ∧
    related_individuals s2 store ont prop indiv = .ok [] ∧
    shortest_path s3 store ont a b = .ok none := by
  refine ⟨?_, ?_, ?_, ?_⟩ <;>
    simp [ancestors_of, descendants_of, related_individuals, shortest_path, h1, h2, h3]

theorem toggles_off_give_empty_results_witness :
    ancestors_of chOff peopleStore "https://example.org/onto" "https://example.org/Person" = .ok [] ∧
    descendants_of chOff peopleStore "https://example.org/onto" "https://example.org/Person" = .ok [] ∧
    related_individuals paOff peopleStore "https://example.org/onto" "https://example.org/link" "https://example.org/alice" = .ok [] ∧
    shortest_path ppOff peopleStore "https://example.org/onto" "https://example.org/alice" "https://example.org/bob" = .ok none :=
  toggles_off_give_empty_results chOff paOff ppOff peopleStore
    "https://example.org/onto" "https://example.org/Person" "https://example.org/link"
    "https://example.org/alice" "https://example.org/alice" "https://example.org/bob"
    rfl rfl rfl

/-- Claim C10: each query checks its toggle before any existence validation,
so with the toggle off even a nonexistent ontology identifier (and arbitrary
class/property/individual identifiers) yields the empty result, never a
Missing error. -/
theorem toggle_checked_before_validation
    (s1 s2 s3 : ReasonerSettings) (store : Store) (ont cls prop indiv a b : Iri)
    (hmissing : store.lookup ont = none)
    (h1 : s1.inference.class_hierarchy = false)
    (h2 : s2.inference.property_assertions = false)
    (h3 : s3.inference.property_paths = false) :
    ancestors_of s1 store ont cls = .ok [] ∧
    descendants_of s1 store ont cls = .ok [] ∧
    related_individuals s2 store ont prop indiv = .ok [] ∧
    shortest_path s3 store ont a b = .ok none := by
  refine ⟨?_, ?_, ?_, ?_⟩ <;>
    simp [ancestors_of, descendants_of, related_individuals, shortest_path, h1, h2, h3]

theorem toggle_checked_before_validation_witness :
    List.lookup "https://example.org/absent" peopleStore = none ∧
    ancestors_of chOff peopleStore "https://example.org/absent" "https://example.org/NoClass" = .ok [] ∧
    descendants_of chOff peopleStore "https://example.org/absent" "https://example.org/NoClass" = .ok [] ∧
    related_individuals paOff peopleStore "https://example.org/absent" "https://example.org/nope" "https://example.org/nobody" = .ok [] ∧
    shortest_path ppOff peopleStore "https://example.org/absent" "https://example.org/nobody" "https://example.org/nobody" = .ok none :=
  ⟨rfl,
    toggle_checked_before_validation chOff paOff ppOff peopleStore
      "https://example.org/absent" "https://example.org/NoClass" "https://example.org/nope"
      "https://example.org/nobody" "https://example.org/nobody" "https://example.org/nobody"
      rfl rfl rfl rfl⟩

/-! ### Claim C9: trivial self paths -/

/-- Claim C9: with the `property_paths` toggle on, `shortest_path` from a
stored individual to itself returns the singleton path, whatever assertions
the individual carries. -/
theorem shortest_path_self (settings : ReasonerSettings) (store : Store)
    (ont x : Iri) (o : Ontology) (src : Individual)
    (hpp : settings.inference.property_paths = true)
    (ho : store.lookup ont = some o)
    (hx : o.getIndividual x = some src) :
    shortest_path settings store ont x x = .ok (some [x]) := by
  have hid : src.id = x := getIndividual_id hx
  simp only [shortest_path, hpp, Bool.not_true, Bool.false_eq_true, if_false, ho,
    hx, Option.isNone_some, pathFuel]
  simp [pathLoop, hid]

theorem shortest_path_self_witness :
    allOn.inference.property_paths = true ∧
    List.lookup "https://example.org/onto" peopleStore = some peopleO ∧
    shortest_path allOn peopleStore "https://example.org/onto"
      "https://example.org/carol" "https://example.org/carol" =
      .ok (some ["https://example.org/carol"]) :=
  ⟨rfl, rfl,
    shortest_path_self allOn peopleStore "https://example.org/onto"
      "https://example.org/carol" peopleO carolInd rfl rfl rfl⟩

/-! ### Claim C4: descendants are direct children only -/

/-- Claim C4: with the `class_hierarchy` toggle on, `descendants_of` of a
stored class returns exactly the classes whose declared parent set contains
the class directly — one hop, not a transitive closure. -/
theorem descendants_are_direct_children (settings : ReasonerSettings)
    (store : Store) (ont cls : Iri) (o : Ontology) (start : Class)
    (hch : settings.inference.class_hierarchy = true)
    (ho : store.lookup ont = some o)
    (hc : o.getClass cls = some start) :
    ∃ r, descendants_of settings store ont cls = .ok r ∧
      ∀ x, x ∈ r ↔ ∃ c, (c ∈ o.classes ∧ cls ∈ c.super_classes) ∧ c.id = x := by
  refine ⟨(o.classes.filter (fun c => cls ∈ c.super_classes)).map Class.id, ?_, ?_⟩
  · simp [descendants_of, hch, ho, hc]
  · intro x
    simp [List.mem_map, List.mem_filter]

theorem descendants_are_direct_children_witness :
    (∃ r, descendants_of allOn chainStore "https://example.org/onto"
        "https://example.org/Base" = .ok r ∧
      ∀ x, x ∈ r ↔ ∃ c, (c ∈ chainO.classes ∧ "https://example.org/Base" ∈ c.super_classes) ∧ c.id = x) ∧
    descendants_of allOn chainStore "https://example.org/onto"
      "https://example.org/Base" = .ok ["https://example.org/Derived"] :=
  ⟨descendants_are_direct_children allOn chainStore "https://example.org/onto"
      "https://example.org/Base" chainO { id := "https://example.org/Base" } rfl rfl rfl,
    rfl⟩

/-! ### Claim C5: failed mutations are atomic -/

theorem add_class_atomic {o : Ontology} {c : Class} {e : OntologyError}
    {o2 : Ontology} (h : o.add_class c = (some e, o2)) : o2 = o := by
  unfold Ontology.add_class at h
  by_cases hd : (o.getClass c.id).isSome
  · simp only [hd, if_true, Prod.mk.injEq] at h
    exact h.2.symm
  · simp [hd] at h

theorem add_property_atomic {o : Ontology} {p : Property} {e : OntologyError}
    {o2 : Ontology} (h : o.add_property p = (some e, o2)) : o2 = o := by
  unfold Ontology.add_property at h
  by_cases hd : (o.getProperty p.id).isSome
  · simp only [hd, if_true, Prod.mk.injEq] at h
    exact h.2.symm
  · simp only [hd, Bool.false_eq_true, if_false] at h
    rcases hdom : firstUnknownClass o p.domains with _ | cl
    · rcases hran : firstUnknownClass o p.ranges with _ | cl
      · simp [hdom, hran] at h
      · simp only [hdom, hran, Prod.mk.injEq] at h
        exact h.2.symm
    · simp only [hdom, Prod.mk.injEq] at h
      exact h.2.symm

theorem add_individual_atomic {o : Ontology} {ind : Individual}
    {e : OntologyError} {o2 : Ontology}
    (h : o.add_individual ind = (some e, o2)) : o2 = o := by
  unfold Ontology.add_individual at h
  by_cases hd : (o.getIndividual ind.id).isSome
  · simp only [hd, if_true, Prod.mk.injEq] at h
    exact h.2.symm
  · simp only [hd, Bool.false_eq_true, if_false] at h
    rcases htyp : firstUnknownClass o ind.types with _ | cl
    · rcases hchk : checkAssertionLists o ind.properties with _ | err
      · simp [htyp, hchk] at h
      · simp only [htyp, hchk, Prod.mk.injEq] at h
        exact h.2.symm
    · simp only [htyp, Prod.mk.injEq] at h
      exact h.2.symm

theorem attach_class_atomic {store : Store} {ont : Iri} {c : Class}
    {e : OntologyServiceError} {st2 : Store}
    (h : attach_class store ont c = (some e, st2)) : st2 = store := by
  unfold attach_class at h
  rcases hl : store.lookup ont with _ | o1
  · simp only [hl, Prod.mk.injEq] at h
    exact h.2.symm
  · simp only [hl] at h
    rcases hac : o1.add_class c with ⟨err?, o2⟩
    rcases err? with _ | err
    · simp [hac] at h
    · simp only [hac, Prod.mk.injEq] at h
      have ho2 : o2 = o1 := add_class_atomic hac
      subst ho2
      rw [← h.2]
      exact storeSet_lookup_self store hl

theorem attach_property_atomic {store : Store} {ont : Iri} {p : Property}
    {e : OntologyServiceError} {st2 : Store}
    (h : attach_property store ont p = (some e, st2)) : st2 = store := by
  unfold attach_property at h
  rcases hl : store.lookup ont with _ | o1
  · simp only [hl, Prod.mk.injEq] at h
    exact h.2.symm
  · simp only [hl] at h
    rcases hac : o1.add_property p with ⟨err?, o2⟩
    rcases err? with _ | err
    · simp [hac] at h
    · simp only [hac, Prod.mk.injEq] at h
      have ho2 : o2 = o1 := add_property_atomic hac
      subst ho2
      rw [← h.2]
      exact storeSet_lookup_self store hl

theorem attach_individual_atomic {store : Store} {ont : Iri} {ind : Individual}
    {e : OntologyServiceError} {st2 : Store}
    (h : attach_individual store ont ind = (some e, st2)) : st2 = store := by
  unfold attach_individual at h
  rcases hl : store.lookup ont with _ | o1
  · simp only [hl, Prod.mk.injEq] at h
    exact h.2.symm
  · simp only [hl] at h
    rcases hac : o1.add_individual ind with ⟨err?, o2⟩
    rcases err? with _ | err
    · simp [hac] at h
    · simp only [hac, Prod.mk.injEq] at h
      have ho2 : o2 = o1 := add_individual_atomic hac
      subst ho2
      rw [← h.2]
      exact storeSet_lookup_self store hl

/-- Claim C5: every failed aggregate mutation is atomic — whenever
`add_class`, `add_property` or `add_individual` (directly, or through the
repository `attach_class`/`attach_property`/`attach_individual` operations)
reports an error, the resulting aggregate state (and stored map) is exactly
the original one; no partial entry is added. -/
theorem failed_mutations_are_atomic (o : Ontology) (c : Class) (p : Property)
    (ind : Individual) (store : Store) (ont : Iri) :
    (∀ e o2, o.add_class c = (some e, o2) → o2 = o) ∧
    (∀ e o2, o.add_property p = (some e, o2) → o2 = o) ∧
    (∀ e o2, o.add_individual ind = (some e, o2) → o2 = o) ∧
    (∀ e st2, attach_class store ont c = (some e, st2) → st2 = store) ∧
    (∀ e st2, attach_property store ont p = (some e, st2) → st2 = store) ∧
    (∀ e st2, attach_individual store ont ind = (some e, st2) → st2 = store) :=
  ⟨fun _ _ h => add_class_atomic h,
   fun _ _ h => add_property_atomic h,
   fun _ _ h => add_individual_atomic h,
   fun _ _ h => attach_class_atomic h,
   fun _ _ h => attach_property_atomic h,
   fun _ _ h => attach_individual_atomic h⟩

theorem failed_mutations_are_atomic_witness :
    (chainO.add_class dupBaseClass).2 = chainO ∧
    (chainO.add_property badDomainProp).2 = chainO ∧
    (peopleO.add_individual badAssertIndividual).2 = peopleO ∧
    (attach_class chainStore "https://example.org/onto" dupBaseClass).2 = chainStore ∧
    (attach_property chainStore "https://example.org/onto" badDomainProp).2 = chainStore ∧
    (attach_individual peopleStore "https://example.org/onto" badAssertIndividual).2 = peopleStore :=
  ⟨(failed_mutations_are_atomic chainO dupBaseClass badDomainProp badAssertIndividual
      chainStore "https://example.org/onto").1 _ _ rfl,
   (failed_mutations_are_atomic chainO dupBaseClass badDomainProp badAssertIndividual
      chainStore "https://example.org/onto").2.1 _ _ rfl,
   (failed_mutations_are_atomic peopleO dupBaseClass badDomainProp badAssertIndividual
      peopleStore "https://example.org/onto").2.2.1 _ _ rfl,
   (failed_mutations_are_atomic chainO dupBaseClass badDomainProp badAssertIndividual
      chainStore "https://example.org/onto").2.2.2.1 _ _ rfl,
   (failed_mutations_are_atomic chainO dupBaseClass badDomainProp badAssertIndividual
      chainStore "https://example.org/onto").2.2.2.2.1 _ _ rfl,
   (failed_mutations_are_atomic peopleO dupBaseClass badDomainProp badAssertIndividual
      peopleStore "https://example.org/onto").2.2.2.2.2 _ _ rfl⟩

/-! ### Claim C3: related_individuals error behaviour -/

theorem assertionTarget_eq_some {a : PropertyAssertion} {x : Iri} :
    assertionTarget a = some x ↔ a = .Individual x := by
  cases a <;> simp [assertionTarget]

/-- Claim C3 counterexample: `related_individuals` does not reject a stored
property of kind `Data` — `age` exists in `peopleO` with kind `Data`, yet the
query on `alice` succeeds with an empty vector instead of returning an
error. -/
theorem related_individuals_accepts_data_property :
    peopleO.getProperty "https://example.org/age" = some ageProp ∧
    ageProp.kind = .Data ∧
    related_individuals allOn peopleStore "https://example.org/onto"
      "https://example.org/age" "https://example.org/alice" = .ok [] :=
  ⟨rfl, rfl, rfl⟩

/-- Claim C3 (amended): with the `property_assertions` toggle on,
`related_individuals` errors when the property is missing from the ontology
(its kind is not checked), then errors when the individual is missing;
otherwise it returns exactly the `Individual`-variant assertion targets
stored under that property on the individual, in stored order, ignoring
`Literal` assertions. -/
theorem related_individuals_characterization (settings : ReasonerSettings)
    (store : Store) (ont prop indiv : Iri) (o : Ontology)
    (hpa : settings.inference.property_assertions = true)
    (ho : store.lookup ont = some o) :
    (o.getProperty prop = none →
      related_individuals settings store ont prop indiv =
        .error (.MissingProperty o.id prop)) ∧
    (∀ p, o.getProperty prop = some p → o.getIndividual indiv = none →
      related_individuals settings store ont prop indiv =
        .error (.MissingIndividual o.id indiv)) ∧
    (∀ p ind, o.getProperty prop = some p → o.getIndividual indiv = some ind →
      ∃ l, related_individuals settings store ont prop indiv = .ok l ∧
        l = ((ind.properties.lookup prop).getD []).filterMap assertionTarget ∧
        ∀ x, x ∈ l ↔
          PropertyAssertion.Individual x ∈ (ind.properties.lookup prop).getD []) := by
  refine ⟨?_, ?_, ?_⟩
  · intro hp
    simp [related_individuals, hpa, ho, hp]
  · intro p hp hi
    simp [related_individuals, hpa, ho, hp, hi]
  · intro p ind hp hi
    refine ⟨_, ?_, rfl, ?_⟩
    · simp [related_individuals, hpa, ho, hi]
      intro hnone
      rw [hp] at hnone
      simp at hnone
    · intro x
      simp [List.mem_filterMap, assertionTarget_eq_some]

theorem related_individuals_characterization_witness :
    ∃ l, related_individuals allOn peopleStore "https://example.org/onto"
        "https://example.org/link" "https://example.org/alice" = .ok l ∧
      l = ((aliceInd.properties.lookup "https://example.org/link").getD []).filterMap assertionTarget ∧
      ∀ x, x ∈ l ↔
        PropertyAssertion.Individual x ∈
          (aliceInd.properties.lookup "https://example.org/link").getD [] :=
  (related_individuals_characterization allOn peopleStore "https://example.org/onto"
    "https://example.org/link" "https://example.org/alice" peopleO rfl rfl).2.2
    linkProp aliceInd rfl rfl

/-! ### Claim C8: how the toggles actually gate the queries -/

theorem expandProps_false (o : Ontology) (path : List Iri)
    (acc : List Iri × List Entry) :
    ∀ props, expandProps false o path acc props = acc := by
  intro props
  induction props with
  | nil => rfl
  | cons pr rest ih => simp [expandProps, ih]

/-- Claim C8 counterexample: with `property_paths = true` the result of
`shortest_path` is not independent of `property_assertions` — on the stored
edge from `alice` to `bob` the two toggle values give different results. -/
theorem shortest_path_depends_on_property_assertions :
    allOn.inference.property_paths = true ∧
    paOff.inference.property_paths = true ∧
    shortest_path allOn peopleStore "https://example.org/onto"
      "https://example.org/alice" "https://example.org/bob" =
      .ok (some ["https://example.org/alice", "https://example.org/bob"]) ∧
    shortest_path paOff peopleStore "https://example.org/onto"
      "https://example.org/alice" "https://example.org/bob" = .ok none :=
  ⟨rfl, rfl, rfl, rfl⟩

/-- Claim C8 (amended): `class_hierarchy` gates only `ancestors_of` and
`descendants_of`, and `property_paths` gates only `shortest_path`; but
`property_assertions` gates both `related_individuals` and the edge
expansion inside `shortest_path` — with `property_paths` on and
`property_assertions` off, `shortest_path` expands no edges, returning the
singleton path when start equals goal and `None` otherwise. -/
theorem toggle_gating_characterization (s1 s2 : ReasonerSettings)
    (store : Store) (ont cls prop indiv a b : Iri) :
    (s1.inference.class_hierarchy = s2.inference.class_hierarchy →
      ancestors_of s1 store ont cls = ancestors_of s2 store ont cls ∧
      descendants_of s1 store ont cls = descendants_of s2 store ont cls) ∧
    (s1.inference.property_assertions = s2.inference.property_assertions →
      related_individuals s1 store ont prop indiv =
        related_individuals s2 store ont prop indiv) ∧
    (s1.inference.property_paths = s2.inference.property_paths →
      s1.inference.property_assertions = s2.inference.property_assertions →
      shortest_path s1 store ont a b = shortest_path s2 store ont a b) ∧
    (s1.inference.property_paths = true →
      s1.inference.property_assertions = false →
      ∀ o src, store.lookup ont = some o → o.getIndividual a = some src →
        (o.getIndividual b).isNone = false →
        shortest_path s1 store ont a b = .ok (if a = b then some [a] else none)) := by
  obtain ⟨⟨ch1, pa1, pp1⟩⟩ := s1
  obtain ⟨⟨ch2, pa2, pp2⟩⟩ := s2
  refine ⟨?_, ?_, ?_, ?_⟩
  · intro h
    cases h
    exact ⟨rfl, rfl⟩
  · intro h
    cases h
    rfl
  · intro h1 h2
    cases h1
    cases h2
    rfl
  · intro hpp hpa o src ho ha hb
    cases hpp
    cases hpa
    have hid : src.id = a := getIndividual_id ha
    simp only [shortest_path, Bool.not_true, Bool.false_eq_true, if_false, ho, ha, hb,
      pathFuel]
    by_cases hab : a = b
    · subst hab
      simp [pathLoop, hid]
    · have hab2 : (src.id == b) = false := by
        rw [hid]
        exact beq_eq_false_iff_ne.mpr hab
      simp [pathLoop, hab2, ha, expandProps_false, hab]
      rw [hid]
      cases o.getIndividual a <;> rfl

theorem toggle_gating_characterization_witness :
    (ancestors_of paOff peopleStore "https://example.org/onto" "https://example.org/Person" =
      ancestors_of allOn peopleStore "https://example.org/onto" "https://example.org/Person" ∧
     descendants_of paOff peopleStore "https://example.org/onto" "https://example.org/Person" =
      descendants_of allOn peopleStore "https://example.org/onto" "https://example.org/Person") ∧
    shortest_path chOff peopleStore "https://example.org/onto"
      "https://example.org/alice" "https://example.org/bob" =
      shortest_path allOn peopleStore "https://example.org/onto"
        "https://example.org/alice" "https://example.org/bob" ∧
    shortest_path paOff peopleStore "https://example.org/onto"
      "https://example.org/alice" "https://example.org/bob" =
      .ok (if ("https://example.org/alice" : Iri) = "https://example.org/bob"
            then some ["https://example.org/alice"] else none) :=
  ⟨(toggle_gating_characterization paOff allOn peopleStore "https://example.org/onto"
      "https://example.org/Person" "https://example.org/link" "https://example.org/alice"
      "https://example.org/alice" "https://example.org/bob").1 rfl,
   (toggle_gating_characterization chOff allOn peopleStore "https://example.org/onto"
      "https://example.org/Person" "https://example.org/link" "https://example.org/alice"
      "https://example.org/alice" "https://example.org/bob").2.2.1 rfl rfl,
   (toggle_gating_characterization paOff allOn peopleStore "https://example.org/onto"
      "https://example.org/Person" "https://example.org/link" "https://example.org/alice"
      "https://example.org/alice" "https://example.org/bob").2.2.2 rfl rfl
      peopleO aliceInd rfl rfl rfl⟩

/-! ### Claim C1: the ancestor traversal computes the transitive closure and
terminates -/

theorem filterSum_mono (v v2 : List Iri) (h : ∀ x ∈ v, x ∈ v2) (l : List Class) :
    ((l.filter (fun c => c.id ∉ v2)).map (fun c => c.super_classes.length)).sum ≤
    ((l.filter (fun c => c.id ∉ v)).map (fun c => c.super_classes.length)).sum := by
  apply List.Sublist.sum_le_sum
  · refine List.Sublist.map _ (List.monotone_filter_right _ ?_)
    intro a ha
    simp only [decide_eq_true_eq] at ha ⊢
    exact fun hm => ha (h _ hm)
  · intro a _
    exact Nat.zero_le a

theorem remSum_cons_le (o : Ontology) (cur : Iri) (v : List Iri) :
    remSum o (cur :: v) ≤ remSum o v :=
  filterSum_mono v (cur :: v) (fun _ hx => List.mem_cons_of_mem _ hx) o.classes

theorem remSum_visit_aux {cur : Iri} {cls : Class} {v : List Iri} (hnv : cur ∉ v) :
    ∀ l : List Class, l.find? (fun c => c.id == cur) = some cls →
    ((l.filter (fun c => c.id ∉ cur :: v)).map (fun c => c.super_classes.length)).sum
        + cls.super_classes.length ≤
    ((l.filter (fun c => c.id ∉ v)).map (fun c => c.super_classes.length)).sum := by
  intro l
  induction l with
  | nil => intro hfind; simp at hfind
  | cons c t ih =>
    intro hfind
    by_cases hc : c.id = cur
    · have hbeq : (c.id == cur) = true := beq_iff_eq.mpr hc
      simp only [List.find?_cons, hbeq] at hfind
      have hcls : c = cls := by injection hfind
      subst hcls
      rw [List.filter_cons_of_neg (by simp [hc]),
        List.filter_cons_of_pos (by simp [hc, hnv])]
      rw [List.map_cons, List.sum_cons]
      have hm := filterSum_mono v (cur :: v) (fun x hx => List.mem_cons_of_mem _ hx) t
      omega
    · have hbeq : (c.id == cur) = false := by simp [hc]
      simp only [List.find?_cons, hbeq] at hfind
      have ihx := ih hfind
      by_cases hv : c.id ∈ v
      · rw [List.filter_cons_of_neg (by simp [hv]),
          List.filter_cons_of_neg (by simp [hv])]
        exact ihx
      · rw [List.filter_cons_of_pos (by simp [hc, hv]),
          List.filter_cons_of_pos (by simp [hv])]
        rw [List.map_cons, List.sum_cons, List.map_cons, List.sum_cons]
        omega

theorem remSum_visit {o : Ontology} {cur : Iri} {cls : Class} {v : List Iri}
    (hfind : o.getClass cur = some cls) (hnv : cur ∉ v) :
    remSum o (cur :: v) + cls.super_classes.length ≤ remSum o v :=
  remSum_visit_aux hnv o.classes hfind

theorem ancestorsLoop_terminates (o : Ontology) :
    ∀ fuel queue visited result, queue.length + remSum o visited ≤ fuel →
      (ancestorsLoop o fuel queue visited result).isSome = true := by
  intro fuel
  induction fuel with
  | zero =>
    intro queue visited result hb
    cases queue with
    | nil => simp [ancestorsLoop]
    | cons c rest => simp at hb
  | succ f ih =>
    intro queue visited result hb
    cases queue with
    | nil => simp [ancestorsLoop]
    | cons c rest =>
      by_cases hv : c ∈ visited
      · simp only [ancestorsLoop, hv, if_true]
        apply ih
        simp at hb
        omega
      · rcases hg : o.getClass c with _ | cls
        · simp only [ancestorsLoop, hv, if_false, hg]
          apply ih
          have h1 := remSum_cons_le o c visited
          simp at hb
          omega
        · simp only [ancestorsLoop, hv, if_false, hg]
          apply ih
          have h1 := remSum_visit hg hv
          simp at hb
          simp
          omega

theorem ancestorsLoop_sound (o : Ontology) (root : Iri) :
    ∀ fuel queue visited result res,
      ancestorsLoop o fuel queue visited result = some res →
      (∀ x ∈ queue, Relation.TransGen (parentOf o) root x) →
      (∀ x ∈ result, Relation.TransGen (parentOf o) root x) →
      ∀ x ∈ res, Relation.TransGen (parentOf o) root x := by
  intro fuel
  induction fuel with
  | zero =>
    intro queue visited result res hr hq hres
    cases queue with
    | nil =>
      simp [ancestorsLoop] at hr
      exact hr ▸ hres
    | cons c rest => simp [ancestorsLoop] at hr
  | succ f ih =>
    intro queue visited result res hr hq hres
    cases queue with
    | nil =>
      simp [ancestorsLoop] at hr
      exact hr ▸ hres
    | cons c rest =>
      by_cases hv : c ∈ visited
      · simp only [ancestorsLoop, hv, if_true] at hr
        exact ih rest visited result res hr
          (fun x hx => hq x (List.mem_cons_of_mem _ hx)) hres
      · rcases hg : o.getClass c with _ | cls
        · simp only [ancestorsLoop, hv, if_false, hg] at hr
          refine ih rest (c :: visited) (result ++ [c]) res hr
            (fun x hx => hq x (List.mem_cons_of_mem _ hx)) ?_
          intro x hx
          rcases List.mem_append.mp hx with hx | hx
          · exact hres x hx
          · simp at hx
            exact hx ▸ hq c (List.mem_cons_self _ _)
        · simp only [ancestorsLoop, hv, if_false, hg] at hr
          refine ih (rest ++ cls.super_classes) (c :: visited) (result ++ [c]) res hr
            ?_ ?_
          · intro x hx
            rcases List.mem_append.mp hx with hx | hx
            · exact hq x (List.mem_cons_of_mem _ hx)
            · exact Relation.TransGen.tail (hq c (List.mem_cons_self _ _)) ⟨cls, hg, hx⟩
          · intro x hx
            rcases List.mem_append.mp hx with hx | hx
            · exact hres x hx
            · simp at hx
              exact hx ▸ hq c (List.mem_cons_self _ _)

theorem ancestorsLoop_complete (o : Ontology) (root : Iri) :
    ∀ fuel queue visited result res,
      ancestorsLoop o fuel queue visited result = some res →
      (∀ y, parentOf o root y → y ∈ visited ∨ y ∈ queue) →
      (∀ x ∈ visited, ∀ y, parentOf o x y → y ∈ visited ∨ y ∈ queue) →
      (∀ x, x ∈ visited ↔ x ∈ result) →
      ∀ x, Relation.TransGen (parentOf o) root x → x ∈ res := by
  intro fuel
  induction fuel with
  | zero =>
    intro queue visited result res hr hroot hclosed hvr x htg
    cases queue with
    | nil =>
      simp [ancestorsLoop] at hr
      subst hr
      induction htg with
      | single h =>
        rcases hroot _ h with h2 | h2
        · exact (hvr _).mp h2
        · simp at h2
      | tail htg h ihx =>
        rename_i y _
        have hyv : y ∈ visited := (hvr _).mpr ihx
        rcases hclosed y hyv _ h with h2 | h2
        · exact (hvr _).mp h2
        · simp at h2
    | cons c rest => simp [ancestorsLoop] at hr
  | succ f ih =>
    intro queue visited result res hr hroot hclosed hvr x htg
    cases queue with
    | nil =>
      simp [ancestorsLoop] at hr
      subst hr
      induction htg with
      | single h =>
        rcases hroot _ h with h2 | h2
        · exact (hvr _).mp h2
        · simp at h2
      | tail htg h ihx =>
        rename_i y _
        have hyv : y ∈ visited := (hvr _).mpr ihx
        rcases hclosed y hyv _ h with h2 | h2
        · exact (hvr _).mp h2
        · simp at h2
    | cons c rest =>
      by_cases hv : c ∈ visited
      · simp only [ancestorsLoop, hv, if_true] at hr
        refine ih rest visited result res hr ?_ ?_ hvr x htg
        · intro y hy
          rcases hroot y hy with h2 | h2
          · exact Or.inl h2
          · rcases List.mem_cons.mp h2 with h3 | h3
            · exact Or.inl (h3 ▸ hv)
            · exact Or.inr h3
        · intro z hz y hy
          rcases hclosed z hz y hy with h2 | h2
          · exact Or.inl h2
          · rcases List.mem_cons.mp h2 with h3 | h3
            · exact Or.inl (h3 ▸ hv)
            · exact Or.inr h3
      · rcases hg : o.getClass c with _ | cls
        · simp only [ancestorsLoop, hv, if_false, hg] at hr
          refine ih rest (c :: visited) (result ++ [c]) res hr ?_ ?_ ?_ x htg
          · intro y hy
            rcases hroot y hy with h2 | h2
            · exact Or.inl (List.mem_cons_of_mem _ h2)
            · rcases List.mem_cons.mp h2 with h3 | h3
              · exact Or.inl (h3 ▸ List.mem_cons_self _ _)
              · exact Or.inr h3
          · intro z hz y hy
            rcases List.mem_cons.mp hz with hz2 | hz2
            · exfalso
              rcases hy with ⟨cls2, hg2, _⟩
              rw [hz2, hg] at hg2
              simp at hg2
            · rcases hclosed z hz2 y hy with h2 | h2
              · exact Or.inl (List.mem_cons_of_mem _ h2)
              · rcases List.mem_cons.mp h2 with h3 | h3
                · exact Or.inl (h3 ▸ List.mem_cons_self _ _)
                · exact Or.inr h3
          · intro z
            rw [List.mem_cons, List.mem_append, hvr z]
            simp [or_comm]
        · simp only [ancestorsLoop, hv, if_false, hg] at hr
          refine ih (rest ++ cls.super_classes) (c :: visited) (result ++ [c]) res hr
            ?_ ?_ ?_ x htg
          · intro y hy
            rcases hroot y hy with h2 | h2
            · exact Or.inl (List.mem_cons_of_mem _ h2)
            · rcases List.mem_cons.mp h2 with h3 | h3
              · exact Or.inl (h3 ▸ List.mem_cons_self _ _)
              · exact Or.inr (List.mem_append.mpr (Or.inl h3))
          · intro z hz y hy
            rcases List.mem_cons.mp hz with hz2 | hz2
            · rcases hy with ⟨cls2, hg2, hymem⟩
              rw [hz2, hg] at hg2
              injection hg2 with hg3
              exact Or.inr (List.mem_append.mpr (Or.inr (hg3 ▸ hymem)))
            · rcases hclosed z hz2 y hy with h2 | h2
              · exact Or.inl (List.mem_cons_of_mem _ h2)
              · rcases List.mem_cons.mp h2 with h3 | h3
                · exact Or.inl (h3 ▸ List.mem_cons_self _ _)
                · exact Or.inr (List.mem_append.mpr (Or.inl h3))
          · intro z
            rw [List.mem_cons, List.mem_append, hvr z]
            simp [or_comm]

/-- Claim C1: with the `class_hierarchy` toggle on, `ancestors_of` of a
stored class terminates (the worklist completes within its fuel, cycles
included) and returns exactly the identifiers reachable from the class by
one or more hops of the declared-parent relation. -/
theorem ancestors_is_transitive_closure (settings : ReasonerSettings)
    (store : Store) (ont cls : Iri) (o : Ontology) (start : Class)
    (hch : settings.inference.class_hierarchy = true)
    (ho : store.lookup ont = some o)
    (hc : o.getClass cls = some start) :
    ∃ r, ancestorsLoop o (ancestorsFuel o start.super_classes)
        start.super_classes [] [] = some r ∧
      ancestors_of settings store ont cls = .ok r ∧
      ∀ x, x ∈ r ↔ Relation.TransGen (parentOf o) cls x := by
  have hterm := ancestorsLoop_terminates o (ancestorsFuel o start.super_classes)
    start.super_classes [] []
    (by simp [ancestorsFuel, remSum])
  rcases Option.isSome_iff_exists.mp hterm with ⟨r, hr⟩
  refine ⟨r, hr, ?_, ?_⟩
  · simp [ancestors_of, hch, ho, hc, hr]
  · intro x
    constructor
    · intro hx
      refine ancestorsLoop_sound o cls _ _ _ _ _ hr ?_ ?_ x hx
      · intro y hy
        exact Relation.TransGen.single ⟨start, hc, hy⟩
      · intro y hy
        simp at hy
    · intro hx
      refine ancestorsLoop_complete o cls _ _ _ _ _ hr ?_ ?_ ?_ x hx
      · intro y hy
        rcases hy with ⟨cls2, hc2, hymem⟩
        rw [hc] at hc2
        injection hc2 with hc3
        exact Or.inr (hc3 ▸ hymem)
      · intro z hz
        simp at hz
      · intro z
        simp

theorem ancestors_is_transitive_closure_witness :
    (∃ r, ancestorsLoop chainO
        (ancestorsFuel chainO ["https://example.org/Derived"])
        ["https://example.org/Derived"] [] [] = some r ∧
      ancestors_of allOn chainStore "https://example.org/onto"
        "https://example.org/Specialized" = .ok r ∧
      ∀ x, x ∈ r ↔ Relation.TransGen (parentOf chainO) "https://example.org/Specialized" x) ∧
    ancestors_of allOn chainStore "https://example.org/onto"
      "https://example.org/Specialized" =
      .ok ["https://example.org/Derived", "https://example.org/Base"] :=
  ⟨ancestors_is_transitive_closure allOn chainStore "https://example.org/onto"
      "https://example.org/Specialized" chainO
      { id := "https://example.org/Specialized"
        super_classes := ["https://example.org/Derived"] }
      rfl rfl rfl,
    rfl⟩

/-! ### Claim C7: ordering of the ancestor vector -/

theorem ancestorsLoop_result_prefix (o : Ontology) :
    ∀ fuel queue visited result res,
      ancestorsLoop o fuel queue visited result = some res →
      ∃ t, res = result ++ t := by
  intro fuel
  induction fuel with
  | zero =>
    intro queue visited result res hr
    cases queue with
    | nil =>
      simp [ancestorsLoop] at hr
      exact ⟨[], by simp [hr]⟩
    | cons c rest => simp [ancestorsLoop] at hr
  | succ f ih =>
    intro queue visited result res hr
    cases queue with
    | nil =>
      simp [ancestorsLoop] at hr
      exact ⟨[], by simp [hr]⟩
    | cons c rest =>
      by_cases hv : c ∈ visited
      · simp only [ancestorsLoop, hv, if_true] at hr
        exact ih _ _ _ _ hr
      · rcases hg : o.getClass c with _ | cls
        · simp only [ancestorsLoop, hv, if_false, hg] at hr
          rcases ih _ _ _ _ hr with ⟨t, ht⟩
          exact ⟨c :: t, by simp [ht]⟩
        · simp only [ancestorsLoop, hv, if_false, hg] at hr
          rcases ih _ _ _ _ hr with ⟨t, ht⟩
          exact ⟨c :: t, by simp [ht]⟩

theorem ancestorsLoop_nodup (o : Ontology) :
    ∀ fuel queue visited result res,
      ancestorsLoop o fuel queue visited result = some res →
      (∀ x ∈ result, x ∈ visited) → result.Nodup → res.Nodup := by
  intro fuel
  induction fuel with
  | zero =>
    intro queue visited result res hr hsub hnd
    cases queue with
    | nil =>
      simp [ancestorsLoop] at hr
      exact hr ▸ hnd
    | cons c rest => simp [ancestorsLoop] at hr
  | succ f ih =>
    intro queue visited result res hr hsub hnd
    cases queue with
    | nil =>
      simp [ancestorsLoop] at hr
      exact hr ▸ hnd
    | cons c rest =>
      by_cases hv : c ∈ visited
      · simp only [ancestorsLoop, hv, if_true] at hr
        exact ih _ _ _ _ hr hsub hnd
      · have hnotr : c ∉ result := fun hcr => hv (hsub c hcr)
        have hsub2 : ∀ x ∈ result ++ [c], x ∈ c :: visited := by
          intro x hx
          rcases List.mem_append.mp hx with hx | hx
          · exact List.mem_cons_of_mem _ (hsub x hx)
          · simp at hx
            simp [hx]
        have hnd2 : (result ++ [c]).Nodup := by
          simp [List.nodup_append, hnd, hnotr]
        rcases hg : o.getClass c with _ | cls
        · simp only [ancestorsLoop, hv, if_false, hg] at hr
          exact ih _ _ _ _ hr hsub2 hnd2
        · simp only [ancestorsLoop, hv, if_false, hg] at hr
          exact ih _ _ _ _ hr hsub2 hnd2

theorem ancestorsLoop_queue_prefix (o : Ontology) :
    ∀ (queue : List Iri) fuel extra visited result res,
      queue.Nodup → (∀ x ∈ queue, x ∉ visited) →
      ancestorsLoop o fuel (queue ++ extra) visited result = some res →
      ∃ t, res = result ++ queue ++ t := by
  intro queue
  induction queue with
  | nil =>
    intro fuel extra visited result res _ _ hr
    rcases ancestorsLoop_result_prefix o _ _ _ _ _ hr with ⟨t, ht⟩
    exact ⟨t, by simp [ht]⟩
  | cons c q2 ih =>
    intro fuel extra visited result res hnd hnv hr
    cases fuel with
    | zero => simp [ancestorsLoop] at hr
    | succ f =>
      have hv : c ∉ visited := hnv c (List.mem_cons_self _ _)
      have hnd2 : q2.Nodup := (List.nodup_cons.mp hnd).2
      have hnc : c ∉ q2 := (List.nodup_cons.mp hnd).1
      have hnv2 : ∀ x ∈ q2, x ∉ c :: visited := by
        intro x hx
        simp only [List.mem_cons, not_or]
        exact ⟨fun he => hnc (he ▸ hx), hnv x (List.mem_cons_of_mem _ hx)⟩
      rcases hg : o.getClass c with _ | cls
      · rw [List.cons_append] at hr
        simp only [ancestorsLoop, hv, if_false, hg] at hr
        rcases ih f extra (c :: visited) (result ++ [c]) res hnd2 hnv2 hr with ⟨t, ht⟩
        exact ⟨t, by simp [ht]⟩
      · rw [List.cons_append] at hr
        simp only [ancestorsLoop, hv, if_false, hg] at hr
        rw [List.append_assoc q2 extra cls.super_classes] at hr
        rcases ih f (extra ++ cls.super_classes) (c :: visited) (result ++ [c]) res
          hnd2 hnv2 hr with ⟨t, ht⟩
        exact ⟨t, by simp [ht]⟩

/-- Claim C7 counterexample: the vector returned by `ancestors_of` is not
sorted by identifier — on an ontology where `C`'s parent is `Z` and `Z`'s
parent is `A`, the result is `[Z, A]`, which is not `≤`-sorted. -/
theorem ancestors_not_sorted :
    ancestors_of allOn unsortedStore "https://example.org/onto"
      "https://example.org/C" =
      .ok ["https://example.org/Z", "https://example.org/A"] ∧
    ¬ List.Sorted (· ≤ ·)
      [("https://example.org/Z" : Iri), "https://example.org/A"] := by
  constructor
  · rfl
  · intro hs
    have h := List.rel_of_sorted_cons hs "https://example.org/A"
      (List.mem_cons_self _ _)
    rw [String.le_iff_toList_le] at h
    revert h
    decide

/-- Claim C7 (amended): the vector returned by `ancestors_of` is the
deterministic breadth-first discovery order, not a sorted vector: it is
duplicate-free and begins with the class's declared parents in ascending
declared order, deeper ancestors following in discovery order. -/
theorem ancestors_order_characterization (settings : ReasonerSettings)
    (store : Store) (ont cls : Iri) (o : Ontology) (start : Class)
    (hch : settings.inference.class_hierarchy = true)
    (ho : store.lookup ont = some o)
    (hc : o.getClass cls = some start)
    (hsorted : List.Pairwise (· < ·) start.super_classes) :
    ∃ r t, ancestors_of settings store ont cls = .ok r ∧
      r = start.super_classes ++ t ∧ r.Nodup := by
  have hterm := ancestorsLoop_terminates o (ancestorsFuel o start.super_classes)
    start.super_classes [] []
    (by simp [ancestorsFuel, remSum])
  rcases Option.isSome_iff_exists.mp hterm with ⟨r, hr⟩
  have hnodupq : start.super_classes.Nodup := hsorted.imp ne_of_lt
  have hpre := ancestorsLoop_queue_prefix o start.super_classes
    (ancestorsFuel o start.super_classes) [] [] [] r hnodupq
    (by intro x _; simp) (by simpa using hr)
  rcases hpre with ⟨t, ht⟩
  refine ⟨r, t, ?_, by simpa using ht, ?_⟩
  · simp [ancestors_of, hch, ho, hc, hr]
  · exact ancestorsLoop_nodup o _ _ _ _ _ hr (by simp) List.nodup_nil

theorem ancestors_order_characterization_witness :
    ∃ r t, ancestors_of allOn unsortedStore "https://example.org/onto"
        "https://example.org/C" = .ok r ∧
      r = ["https://example.org/Z"] ++ t ∧ r.Nodup :=
  ancestors_order_characterization allOn unsortedStore "https://example.org/onto"
    "https://example.org/C" unsortedO
    { id := "https://example.org/C", super_classes := ["https://example.org/Z"] }
    rfl rfl rfl (by simp)

/-! ### Claim C2: breadth-first shortest paths

The development follows the usual shape of verified worklist searches: a
structural characterization of the expansion step, a counting argument for
fuel adequacy, and a loop invariant (`BfsInv`) carrying path validity,
minimality and frontier completeness. -/

theorem isPath_singleton (r : Iri → Iri → Prop) (s : Iri) :
    IsPath r s s [s] :=
  ⟨rfl, rfl, List.chain'_singleton s⟩

theorem isPath_length_pos {r : Iri → Iri → Prop} {s e : Iri} {p : List Iri}
    (h : IsPath r s e p) : 1 ≤ p.length := by
  rcases h with ⟨h1, _, _⟩
  cases p with
  | nil => simp at h1
  | cons a t => simp

theorem isPath_length_one {r : Iri → Iri → Prop} {s e : Iri} {p : List Iri}
    (h : IsPath r s e p) (hlen : p.length = 1) : e = s ∧ p = [s] := by
  rcases h with ⟨h1, h2, _⟩
  cases p with
  | nil => simp at h1
  | cons a t =>
    cases t with
    | nil =>
      simp at h1 h2
      subst h1
      exact ⟨h2.symm, rfl⟩
    | cons b t2 => simp at hlen

theorem isPath_append_edge {r : Iri → Iri → Prop} {s c n : Iri} {p : List Iri}
    (h : IsPath r s c p) (he : r c n) : IsPath r s n (p ++ [n]) := by
  rcases h with ⟨h1, h2, h3⟩
  refine ⟨?_, List.getLast?_concat p, ?_⟩
  · rw [List.head?_append, h1]
    rfl
  · rw [List.chain'_append]
    refine ⟨h3, List.chain'_singleton n, ?_⟩
    intro x hx y hy
    rw [h2] at hx
    simp at hx hy
    subst hx
    subst hy
    exact he

theorem isPath_decompose {r : Iri → Iri → Prop} {s e : Iri} {p : List Iri}
    (h : IsPath r s e p) (hlen : 2 ≤ p.length) :
    ∃ p2 u, p = p2 ++ [e] ∧ IsPath r s u p2 ∧ r u e ∧ p2.length + 1 = p.length := by
  rcases h with ⟨h1, h2, h3⟩
  rcases List.eq_nil_or_concat p with hnil | ⟨p2, b, hcat⟩
  · subst hnil
    simp at h1
  · rw [List.concat_eq_append] at hcat
    subst hcat
    have hb : b = e := by
      rw [List.getLast?_concat] at h2
      exact Option.some.inj h2
    subst hb
    have hp2ne : p2 ≠ [] := by
      intro hx
      subst hx
      simp at hlen
    rcases List.chain'_append.mp h3 with ⟨hc2, _, hcross⟩
    have hlast : ∃ u, p2.getLast? = some u := by
      rcases Option.isSome_iff_exists.mp (List.getLast?_isSome.mpr hp2ne) with ⟨u, hu⟩
      exact ⟨u, hu⟩
    rcases hlast with ⟨u, hu⟩
    refine ⟨p2, u, rfl, ⟨?_, hu, hc2⟩, ?_, by simp⟩
    · rw [List.head?_append] at h1
      cases hh : p2.head? with
      | none => simp [List.head?_eq_none_iff.mp hh] at hp2ne
      | some a =>
        rw [hh] at h1
        simpa using h1
    · exact hcross u hu b rfl

theorem closed_reach {r : Iri → Iri → Prop} {s : Iri} {visited : List Iri}
    (hclosed : ∀ v ∈ visited, ∀ n, r v n → n ∈ visited)
    (hs : s ∈ visited) :
    ∀ bound (z : Iri) (p : List Iri), p.length ≤ bound → IsPath r s z p →
      z ∈ visited := by
  intro bound
  induction bound with
  | zero =>
    intro z p hb hp
    have := isPath_length_pos hp
    omega
  | succ n ih =>
    intro z p hb hp
    by_cases h1 : p.length = 1
    · rcases isPath_length_one hp h1 with ⟨hz, _⟩
      exact hz ▸ hs
    · have h2 : 2 ≤ p.length := by
        have := isPath_length_pos hp
        omega
      rcases isPath_decompose hp h2 with ⟨p2, u, _, hp2, hedge, hplen⟩
      have hu : u ∈ visited := ih u p2 (by omega) hp2
      exact hclosed u hu z hedge

theorem countP_disjoint (T : List Iri) (p q : Iri → Bool)
    (h : ∀ t, ¬(p t = true ∧ q t = true)) :
    T.countP (fun t => p t || q t) = T.countP p + T.countP q := by
  induction T with
  | nil => simp
  | cons a t ih =>
    rw [List.countP_cons, List.countP_cons, List.countP_cons, ih]
    by_cases hp : p a = true
    · have hq : ¬ q a = true := fun hq => h a ⟨hp, hq⟩
      simp [hp, hq]
      omega
    · by_cases hq : q a = true
      · simp [hp, hq]
        omega
      · simp [hp, hq]

theorem nodup_length_le_countP (S : List Iri) :
    ∀ T : List Iri, S.Nodup → (∀ x ∈ S, x ∈ T) →
      S.length ≤ T.countP (fun t => decide (t ∈ S)) := by
  induction S with
  | nil => intro T _ _; simp
  | cons x S2 ih =>
    intro T hnd hsub
    have hx : x ∈ T := hsub x (List.mem_cons_self _ _)
    have hnd2 : S2.Nodup := (List.nodup_cons.mp hnd).2
    have hxn : x ∉ S2 := (List.nodup_cons.mp hnd).1
    have hcongr : T.countP (fun t => decide (t ∈ x :: S2)) =
        T.countP (fun t => decide (t = x) || decide (t ∈ S2)) := by
      apply List.countP_congr
      intro a _
      simp [List.mem_cons]
    rw [hcongr, countP_disjoint T _ _ ?hdisj]
    case hdisj =>
      intro t ht
      rcases ht with ⟨h1, h2⟩
      simp at h1 h2
      exact hxn (h1 ▸ h2)
    have hcount : 1 ≤ T.countP (fun t => decide (t = x)) := by
      have : T.countP (fun t => decide (t = x)) = T.count x := by
        simp [List.count, List.countP_congr]
        apply List.countP_congr
        intro a _
        simp [beq_iff_eq]
      rw [this]
      exact List.count_pos_iff.mpr hx
    have hih := ih T hnd2 (fun y hy => hsub y (List.mem_cons_of_mem _ hy))
    simp only [List.length_cons]
    omega

theorem cnt_decrement (o : Ontology) (v v2 : List Iri) (N : List Iri)
    (hv2 : ∀ x, x ∈ v2 ↔ x ∈ N ∨ x ∈ v)
    (hnd : N.Nodup)
    (hsub : ∀ x ∈ N, x ∈ allTargets o)
    (hdisj : ∀ x ∈ N, x ∉ v) :
    N.length + cntUnvisited o v2 ≤ cntUnvisited o v := by
  unfold cntUnvisited
  have hsplit : (allTargets o).countP (fun t => decide (t ∉ v)) =
      (allTargets o).countP (fun t => decide (t ∈ N) || decide (t ∉ v2)) := by
    apply List.countP_congr
    intro a _
    simp only [decide_eq_true_eq, Bool.or_eq_true]
    constructor
    · intro ha
      by_cases hn : a ∈ N
      · exact Or.inl hn
      · refine Or.inr (fun hav2 => ?_)
        rcases (hv2 a).mp hav2 with h | h
        · exact hn h
        · exact ha h
    · intro ha hav
      rcases ha with h | h
      · exact hdisj a h hav
      · exact h ((hv2 a).mpr (Or.inr hav))
  rw [hsplit, countP_disjoint _ _ _ ?hd]
  case hd =>
    intro t ht
    rcases ht with ⟨h1, h2⟩
    simp at h1 h2
    exact h2 ((hv2 t).mpr (Or.inl h1))
  have := nodup_length_le_countP N (allTargets o) hnd hsub
  omega

theorem expandAssertions_spec (path : List Iri) :
    ∀ (l : List PropertyAssertion) (v : List Iri) (q : List Entry),
      ∃ Δ : List Entry,
        expandAssertions path (v, q) l = ((Δ.map Prod.fst).reverse ++ v, q ++ Δ) ∧
        (∀ e ∈ Δ, e.2 = path ++ [e.1] ∧ e.1 ∉ v ∧
          PropertyAssertion.Individual e.1 ∈ l) ∧
        (Δ.map Prod.fst).Nodup ∧
        (∀ n, PropertyAssertion.Individual n ∈ l → n ∈ Δ.map Prod.fst ∨ n ∈ v) := by
  intro l
  induction l with
  | nil =>
    intro v q
    exact ⟨[], by simp [expandAssertions], by simp, by simp, by simp⟩
  | cons a rest ih =>
    intro v q
    cases a with
    | Literal str =>
      rcases ih v q with ⟨Δ, h1, h2, h3, h4⟩
      refine ⟨Δ, by simpa [expandAssertions] using h1, ?_, h3, ?_⟩
      · intro e he
        rcases h2 e he with ⟨ha, hb, hc⟩
        exact ⟨ha, hb, List.mem_cons_of_mem _ hc⟩
      · intro n hn
        rcases List.mem_cons.mp hn with h | h
        · cases h
        · exact h4 n h
    | Individual next =>
      by_cases hv : next ∈ v
      · rcases ih v q with ⟨Δ, h1, h2, h3, h4⟩
        refine ⟨Δ, by simpa [expandAssertions, hv] using h1, ?_, h3, ?_⟩
        · intro e he
          rcases h2 e he with ⟨ha, hb, hc⟩
          exact ⟨ha, hb, List.mem_cons_of_mem _ hc⟩
        · intro n hn
          rcases List.mem_cons.mp hn with h | h
          · injection h with h
            exact Or.inr (h ▸ hv)
          · exact h4 n h
      · rcases ih (next :: v) (q ++ [(next, path ++ [next])]) with ⟨Δ, h1, h2, h3, h4⟩
        refine ⟨(next, path ++ [next]) :: Δ, ?_, ?_, ?_, ?_⟩
        · have heq : expandAssertions path (v, q) (PropertyAssertion.Individual next :: rest) =
              expandAssertions path (next :: v, q ++ [(next, path ++ [next])]) rest := by
            simp [expandAssertions, hv]
          rw [heq, h1]
          simp
        · intro e he
          rcases List.mem_cons.mp he with h | h
          · subst h
            exact ⟨rfl, hv, List.mem_cons_self _ _⟩
          · rcases h2 e h with ⟨ha, hb, hc⟩
            refine ⟨ha, ?_, List.mem_cons_of_mem _ hc⟩
            intro hev
            exact hb (List.mem_cons_of_mem _ hev)
        · simp only [List.map_cons, List.nodup_cons]
          refine ⟨?_, h3⟩
          intro hmem
          rcases List.mem_map.mp hmem with ⟨e, he, hfst⟩
          rcases h2 e he with ⟨_, hb, _⟩
          exact hb (hfst ▸ List.mem_cons_self _ _)
        · intro n hn
          rcases List.mem_cons.mp hn with h | h
          · injection h with h
            subst h
            exact Or.inl (by simp)
          · rcases h4 n h with h5 | h5
            · exact Or.inl (List.mem_cons_of_mem _ h5)
            · rcases List.mem_cons.mp h5 with h6 | h6
              · exact Or.inl (h6 ▸ by simp)
              · exact Or.inr h6

theorem expandProps_spec (o : Ontology) (path : List Iri) :
    ∀ (props : List (Iri × List PropertyAssertion)) (v : List Iri) (q : List Entry),
      ∃ Δ : List Entry,
        expandProps true o path (v, q) props = ((Δ.map Prod.fst).reverse ++ v, q ++ Δ) ∧
        (∀ e ∈ Δ, e.2 = path ++ [e.1] ∧ e.1 ∉ v ∧
          ∃ pr ∈ props, propAllowed o pr.1 = true ∧
            PropertyAssertion.Individual e.1 ∈ pr.2) ∧
        (Δ.map Prod.fst).Nodup ∧
        (∀ n pr, pr ∈ props → propAllowed o pr.1 = true →
          PropertyAssertion.Individual n ∈ pr.2 → n ∈ Δ.map Prod.fst ∨ n ∈ v) := by
  intro props
  induction props with
  | nil =>
    intro v q
    exact ⟨[], by simp [expandProps], by simp, by simp, by simp⟩
  | cons pr rest ih =>
    intro v q
    by_cases hall : propAllowed o pr.1 = true
    · rcases expandAssertions_spec path pr.2 v q with ⟨Δ1, g1, g2, g3, g4⟩
      rcases ih ((Δ1.map Prod.fst).reverse ++ v) (q ++ Δ1) with ⟨Δ2, h1, h2, h3, h4⟩
      refine ⟨Δ1 ++ Δ2, ?_, ?_, ?_, ?_⟩
      · have heq : expandProps true o path (v, q) (pr :: rest) =
            expandProps true o path (expandAssertions path (v, q) pr.2) rest := by
          simp [expandProps, hall]
        rw [heq, g1, h1]
        simp
      · intro e he
        rcases List.mem_append.mp he with h | h
        · rcases g2 e h with ⟨ha, hb, hc⟩
          exact ⟨ha, hb, pr, List.mem_cons_self _ _, hall, hc⟩
        · rcases h2 e h with ⟨ha, hb, pr2, hpr2, hall2, hc⟩
          refine ⟨ha, ?_, pr2, List.mem_cons_of_mem _ hpr2, hall2, hc⟩
          intro hev
          exact hb (by simp [hev])
      · rw [List.map_append]
        rw [List.nodup_append]
        refine ⟨g3, h3, ?_⟩
        intro x hx1 hx2
        rcases List.mem_map.mp hx2 with ⟨e, he, hfst⟩
        rcases h2 e he with ⟨_, hb, _⟩
        exact hb (by simp [hfst, hx1])
      · intro n pr2 hpr2 hall2 hmem
        rcases List.mem_cons.mp hpr2 with h | h
        · subst h
          rcases g4 n hmem with h5 | h5
          · exact Or.inl (by simp [h5])
          · exact Or.inr h5
        · rcases h4 n pr2 h hall2 hmem with h5 | h5
          · exact Or.inl (by simp [h5])
          · rcases List.mem_append.mp h5 with h6 | h6
            · exact Or.inl (by simp [List.mem_reverse.mp h6])
            · exact Or.inr h6
    · rcases ih v q with ⟨Δ, h1, h2, h3, h4⟩
      have heq : expandProps true o path (v, q) (pr :: rest) =
          expandProps true o path (v, q) rest := by
        simp [expandProps, hall]
      refine ⟨Δ, heq ▸ h1, ?_, h3, ?_⟩
      · intro e he
        rcases h2 e he with ⟨ha, hb, pr2, hpr2, hall2, hc⟩
        exact ⟨ha, hb, pr2, List.mem_cons_of_mem _ hpr2, hall2, hc⟩
      · intro n pr2 hpr2 hall2 hmem
        rcases List.mem_cons.mp hpr2 with h | h
        · exact absurd (h ▸ hall2) hall
        · exact h4 n pr2 h hall2 hmem

theorem allTargets_mem {o : Ontology} {ind : Individual}
    {pr : Iri × List PropertyAssertion} {n : Iri}
    (hind : ind ∈ o.individuals) (hpr : pr ∈ ind.properties)
    (hmem : PropertyAssertion.Individual n ∈ pr.2) : n ∈ allTargets o := by
  unfold allTargets
  rw [List.mem_flatten]
  refine ⟨_, List.mem_map_of_mem _ hind, ?_⟩
  rw [List.mem_flatten]
  refine ⟨_, List.mem_map_of_mem _ hpr, ?_⟩
  rw [List.mem_filterMap]
  exact ⟨_, hmem, rfl⟩

theorem pathLoop_terminates (pa : Bool) (o : Ontology) (goal : Iri) :
    ∀ fuel visited queue, queue.length + cntUnvisited o visited ≤ fuel →
      (pathLoop pa o goal fuel visited queue).isSome = true := by
  intro fuel
  induction fuel with
  | zero =>
    intro visited queue hb
    cases queue with
    | nil => simp [pathLoop]
    | cons e rest =>
      simp at hb
  | succ f ih =>
    intro visited queue hb
    cases queue with
    | nil => simp [pathLoop]
    | cons ent rest =>
      obtain ⟨current, path⟩ := ent
      by_cases hg : (current == goal) = true
      · simp [pathLoop, hg]
      · rw [Bool.not_eq_true] at hg
        rcases hi : o.getIndividual current with _ | ind
        · simp only [pathLoop, hg, Bool.false_eq_true, if_false, hi]
          apply ih
          simp at hb
          omega
        · cases pa with
          | false =>
            simp only [pathLoop, hg, Bool.false_eq_true, if_false, hi,
              expandProps_false]
            apply ih
            simp at hb
            omega
          | true =>
            simp only [pathLoop, hg, Bool.false_eq_true, if_false, hi]
            rcases expandProps_spec o path ind.properties visited rest with
              ⟨Δ, h1, h2, h3, h4⟩
            rw [h1]
            apply ih
            have hdec :=
              cnt_decrement o visited
                ((Δ.map Prod.fst).reverse ++ visited) (Δ.map Prod.fst)
                (by intro x; simp)
                h3
                (by
                  intro x hx
                  rcases List.mem_map.mp hx with ⟨e, he, hfst⟩
                  rcases h2 e he with ⟨_, _, pr, hpr, _, hmem⟩
                  exact hfst ▸ allTargets_mem (getIndividual_mem hi) hpr hmem)
                (by
                  intro x hx
                  rcases List.mem_map.mp hx with ⟨e, he, hfst⟩
                  rcases h2 e he with ⟨_, hb2, _⟩
                  exact hfst ▸ hb2)
            rw [List.length_map] at hdec
            simp only [List.length_append]
            simp only [List.length_cons] at hb
            omega

theorem bfsInv_initial (o : Ontology) (start goal : Iri) :
    BfsInv o start goal [start] [(start, [start])] := by
  refine ⟨?_, ?_, ?_, ?_, ?_, ?_, ?_, ?_, ?_⟩
  · intro e he
    simp at he
    subst he
    exact isPath_singleton _ start
  · simp
  · intro a ha b hb
    simp at ha hb
    subst ha
    subst hb
    simp
  · intro e he q hq
    simp at he
    subst he
    simpa using isPath_length_pos hq
  · intro z p hp hall
    have h1 : p.length ≤ 1 := by
      have := hall (start, [start]) (by simp)
      simpa using this
    have h2 : p.length = 1 := by
      have := isPath_length_pos hp
      omega
    rcases isPath_length_one hp h2 with ⟨hz, _⟩
    simp [hz]
  · intro e he
    simp at he
    subst he
    simp
  · intro v hv
    simp at hv
    subst hv
    exact Or.inl ⟨(v, [v]), by simp⟩
  · simp
  · intro hg
    simp at hg
    exact ⟨(start, [start]), by simp, hg.symm⟩

theorem bfsInv_step {o : Ontology} {start goal : Iri} {visited visited' : List Iri}
    {current : Iri} {path : List Iri} {rest Δ : List Entry}
    (inv : BfsInv o start goal visited ((current, path) :: rest))
    (hne : current ≠ goal)
    (hP1 : visited' = (Δ.map Prod.fst).reverse ++ visited)
    (hP2 : ∀ e ∈ Δ, e.2 = path ++ [e.1] ∧ e.1 ∉ visited ∧ objectEdge o current e.1)
    (hP4 : ∀ n, objectEdge o current n → (∃ e ∈ Δ, e.1 = n) ∨ n ∈ visited) :
    BfsInv o start goal visited' (rest ++ Δ) := by
  have hvis : ∀ x, x ∈ visited' ↔ (∃ e ∈ Δ, e.1 = x) ∨ x ∈ visited := by
    subst hP1
    intro x
    simp [List.mem_append, List.mem_reverse, List.mem_map]
  have hpc : IsPath (objectEdge o) start current path :=
    inv.paths _ (List.mem_cons_self _ _)
  have hrest_lb : ∀ e ∈ rest, path.length ≤ e.2.length :=
    (List.pairwise_cons.mp inv.lenSorted).1
  have hrest_pw := (List.pairwise_cons.mp inv.lenSorted).2
  have hrest_ub : ∀ e ∈ rest, e.2.length ≤ path.length + 1 := fun e he =>
    inv.twoLevel e (List.mem_cons_of_mem _ he) (current, path) (List.mem_cons_self _ _)
  have hΔpath : ∀ e ∈ Δ, IsPath (objectEdge o) start e.1 e.2 := by
    intro e he
    rcases hP2 e he with ⟨h1, _, h3⟩
    rw [h1]
    exact isPath_append_edge hpc h3
  have hΔlen : ∀ e ∈ Δ, e.2.length = path.length + 1 := by
    intro e he
    rw [(hP2 e he).1]
    simp
  have hold_frontier : ∀ z p2, IsPath (objectEdge o) start z p2 →
      p2.length ≤ path.length → z ∈ visited := by
    intro z p2 hp2 hlen
    refine inv.frontier z p2 hp2 ?_
    intro e he
    rcases List.mem_cons.mp he with he1 | he1
    · rw [he1]
      exact hlen
    · exact le_trans hlen (hrest_lb e he1)
  refine ⟨?_, ?_, ?_, ?_, ?_, ?_, ?_, ?_, ?_⟩
  · -- paths
    intro e he
    rcases List.mem_append.mp he with h | h
    · exact inv.paths e (List.mem_cons_of_mem _ h)
    · exact hΔpath e h
  · -- lenSorted
    rw [List.pairwise_append]
    refine ⟨hrest_pw, ?_, ?_⟩
    · refine List.pairwise_of_forall_mem_list ?_
      intro a ha b hb
      rw [hΔlen a ha, hΔlen b hb]
    · intro a ha b hb
      rw [hΔlen b hb]
      exact hrest_ub a ha
  · -- twoLevel
    intro a ha b hb
    rcases List.mem_append.mp ha with h1 | h1 <;> rcases List.mem_append.mp hb with h2 | h2
    · exact inv.twoLevel a (List.mem_cons_of_mem _ h1) b (List.mem_cons_of_mem _ h2)
    · have := hrest_ub a h1
      have := hΔlen b h2
      omega
    · have := hΔlen a h1
      have := hrest_lb b h2
      omega
    · have := hΔlen a h1
      have := hΔlen b h2
      omega
  · -- optimal
    intro e he q hq
    rcases List.mem_append.mp he with h | h
    · exact inv.optimal e (List.mem_cons_of_mem _ h) q hq
    · by_contra hlt
      rw [not_le, hΔlen e h] at hlt
      have hv : e.1 ∈ visited := hold_frontier e.1 q hq (by omega)
      exact (hP2 e h).2.1 hv
  · -- frontier
    intro z p hp hall
    by_cases hq : rest ++ Δ = []
    · rcases List.append_eq_nil.mp hq with ⟨hr, hd⟩
      subst hr
      subst hd
      have hclosed : ∀ v ∈ visited, ∀ n, objectEdge o v n → n ∈ visited := by
        intro v hv n hedge
        rcases inv.closure v hv with ⟨e, he, hef⟩ | h
        · simp at he
          subst he
          simp at hef
          subst hef
          rcases hP4 n hedge with ⟨e2, he2, _⟩ | h2
          · simp at he2
          · exact h2
        · exact h n hedge
      have hz := closed_reach hclosed inv.startVisited p.length z p le_rfl hp
      exact (hvis z).mpr (Or.inr hz)
    · rcases List.exists_mem_of_ne_nil _ hq with ⟨e0, he0⟩
      have hub0 : p.length ≤ path.length + 1 := by
        refine le_trans (hall e0 he0) ?_
        rcases List.mem_append.mp he0 with h | h
        · exact hrest_ub e0 h
        · exact le_of_eq (hΔlen e0 h)
      by_cases hple : p.length ≤ path.length
      · exact (hvis z).mpr (Or.inr (hold_frontier z p hp hple))
      · have hpl : p.length = path.length + 1 := by omega
        have hp2cond : 2 ≤ p.length := by
          have := isPath_length_pos hpc
          omega
        rcases isPath_decompose hp hp2cond with ⟨p2, u, hpeq, hup2, hedge, hp2len⟩
        have hu : u ∈ visited := hold_frontier u p2 hup2 (by omega)
        rcases inv.closure u hu with ⟨e, he, hef⟩ | hclosed
        · rcases List.mem_cons.mp he with he1 | he1
          · have hu_cur : current = u := by
              rw [he1] at hef
              exact hef
            rcases hP4 z (hu_cur ▸ hedge) with h5 | h5
            · exact (hvis z).mpr (Or.inl h5)
            · exact (hvis z).mpr (Or.inr h5)
          · exfalso
            have h1 : e.2.length ≤ p2.length := by
              refine inv.optimal e (List.mem_cons_of_mem _ he1) p2 ?_
              rw [hef]
              exact hup2
            have h2 : p.length ≤ e.2.length := hall e (List.mem_append_left _ he1)
            omega
        · exact (hvis z).mpr (Or.inr (hclosed z hedge))
  · -- inVisited
    intro e he
    rcases List.mem_append.mp he with h | h
    · exact (hvis _).mpr (Or.inr (inv.inVisited e (List.mem_cons_of_mem _ h)))
    · exact (hvis _).mpr (Or.inl ⟨e, h, rfl⟩)
  · -- closure
    intro v hv
    rcases (hvis v).mp hv with ⟨e, he, hef⟩ | hvv
    · exact Or.inl ⟨e, List.mem_append_right _ he, hef⟩
    · rcases inv.closure v hvv with ⟨e, he, hef⟩ | hclosed
      · rcases List.mem_cons.mp he with he1 | he1
        · refine Or.inr ?_
          intro n hedge
          have hcv : current = v := by
            rw [he1] at hef
            exact hef
          rcases hP4 n (hcv ▸ hedge) with h5 | h5
          · exact (hvis n).mpr (Or.inl h5)
          · exact (hvis n).mpr (Or.inr h5)
        · exact Or.inl ⟨e, List.mem_append_left _ he1, hef⟩
      · refine Or.inr ?_
        intro n hedge
        exact (hvis n).mpr (Or.inr (hclosed n hedge))
  · -- startVisited
    exact (hvis start).mpr (Or.inr inv.startVisited)
  · -- goalQueued
    intro hg
    rcases (hvis goal).mp hg with ⟨e, he, hef⟩ | hgv
    · exact ⟨e, List.mem_append_right _ he, hef⟩
    · rcases inv.goalQueued hgv with ⟨e, he, hef⟩
      rcases List.mem_cons.mp he with he1 | he1
      · exfalso
        rw [he1] at hef
        exact hne hef
      · exact ⟨e, List.mem_append_left _ he1, hef⟩

theorem bfsInv_step_noexpand {o : Ontology} {start goal : Iri}
    {visited : List Iri} {current : Iri} {path : List Iri} {rest : List Entry}
    (inv : BfsInv o start goal visited ((current, path) :: rest))
    (hne : current ≠ goal)
    (hi : o.getIndividual current = none) :
    BfsInv o start goal visited rest := by
  have h1 : visited = ((([] : List Entry).map Prod.fst).reverse ++ visited) := by simp
  have hstep := bfsInv_step inv hne h1 (by simp) ?_
  · simpa using hstep
  · intro n hedge
    rcases hedge with ⟨ind2, _, h2, _⟩
    rw [hi] at h2
    cases h2

theorem pathLoop_some {o : Ontology} {start goal : Iri} :
    ∀ fuel visited queue p,
      pathLoop true o goal fuel visited queue = some (some p) →
      BfsInv o start goal visited queue →
      IsPath (objectEdge o) start goal p ∧
        ∀ q, IsPath (objectEdge o) start goal q → p.length ≤ q.length := by
  intro fuel
  induction fuel with
  | zero =>
    intro visited queue p hr inv
    cases queue with
    | nil => simp [pathLoop] at hr
    | cons e rest => simp [pathLoop] at hr
  | succ f ih =>
    intro visited queue p hr inv
    cases queue with
    | nil => simp [pathLoop] at hr
    | cons ent rest =>
      obtain ⟨current, pth⟩ := ent
      by_cases hg : (current == goal) = true
      · have hcg : current = goal := eq_of_beq hg
        simp only [pathLoop, hg, if_true, Option.some.injEq] at hr
        subst hcg
        subst hr
        exact ⟨inv.paths (current, pth) (List.mem_cons_self _ _),
          fun q hq => inv.optimal (current, pth) (List.mem_cons_self _ _) q hq⟩
      · have hne : current ≠ goal := fun h => hg (beq_iff_eq.mpr h)
        rw [Bool.not_eq_true] at hg
        rcases hi : o.getIndividual current with _ | ind
        · simp only [pathLoop, hg, Bool.false_eq_true, if_false, hi] at hr
          exact ih visited rest p hr (bfsInv_step_noexpand inv hne hi)
        · simp only [pathLoop, hg, Bool.false_eq_true, if_false, hi] at hr
          rcases expandProps_spec o pth ind.properties visited rest with ⟨Δ, h1, h2, _, h4⟩
          rw [h1] at hr
          refine ih _ _ p hr ?_
          refine bfsInv_step inv hne rfl ?_ ?_
          · intro e he
            rcases h2 e he with ⟨ha, hb, pr, hpr, hall, hmem⟩
            exact ⟨ha, hb, ind, pr, hi, hpr, hall, hmem⟩
          · intro n hedge
            rcases hedge with ⟨ind2, pr, hi2, hpr, hall, hmem⟩
            rw [hi] at hi2
            injection hi2 with hi2
            subst hi2
            rcases h4 n pr hpr hall hmem with h5 | h5
            · rcases List.mem_map.mp h5 with ⟨e, he, hfst⟩
              exact Or.inl ⟨e, he, hfst⟩
            · exact Or.inr h5

theorem pathLoop_none {o : Ontology} {start goal : Iri} :
    ∀ fuel visited queue,
      pathLoop true o goal fuel visited queue = some none →
      BfsInv o start goal visited queue →
      ¬ ∃ q, IsPath (objectEdge o) start goal q := by
  intro fuel
  induction fuel with
  | zero =>
    intro visited queue hr inv
    cases queue with
    | nil =>
      rintro ⟨q, hq⟩
      have hgv : goal ∈ visited :=
        inv.frontier goal q hq (by intro e he; simp at he)
      rcases inv.goalQueued hgv with ⟨e, he, _⟩
      simp at he
    | cons e rest => simp [pathLoop] at hr
  | succ f ih =>
    intro visited queue hr inv
    cases queue with
    | nil =>
      rintro ⟨q, hq⟩
      have hgv : goal ∈ visited :=
        inv.frontier goal q hq (by intro e he; simp at he)
      rcases inv.goalQueued hgv with ⟨e, he, _⟩
      simp at he
    | cons ent rest =>
      obtain ⟨current, pth⟩ := ent
      by_cases hg : (current == goal) = true
      · simp [pathLoop, hg] at hr
      · have hne : current ≠ goal := fun h => hg (beq_iff_eq.mpr h)
        rw [Bool.not_eq_true] at hg
        rcases hi : o.getIndividual current with _ | ind
        · simp only [pathLoop, hg, Bool.false_eq_true, if_false, hi] at hr
          exact ih visited rest hr (bfsInv_step_noexpand inv hne hi)
        · simp only [pathLoop, hg, Bool.false_eq_true, if_false, hi] at hr
          rcases expandProps_spec o pth ind.properties visited rest with ⟨Δ, h1, h2, _, h4⟩
          rw [h1] at hr
          refine ih _ _ hr ?_
          refine bfsInv_step inv hne rfl ?_ ?_
          · intro e he
            rcases h2 e he with ⟨ha, hb, pr, hpr, hall, hmem⟩
            exact ⟨ha, hb, ind, pr, hi, hpr, hall, hmem⟩
          · intro n hedge
            rcases hedge with ⟨ind2, pr, hi2, hpr, hall, hmem⟩
            rw [hi] at hi2
            injection hi2 with hi2
            subst hi2
            rcases h4 n pr hpr hall hmem with h5 | h5
            · rcases List.mem_map.mp h5 with ⟨e, he, hfst⟩
              exact Or.inl ⟨e, he, hfst⟩
            · exact Or.inr h5

theorem objectEdge_iff {o : Ontology} (hwf : WFassert o) (a b : Iri) :
    objectEdge o a b ↔ objectPropEdge o a b := by
  constructor
  · rintro ⟨ind, pr, hind, hpr, hall, hmem⟩
    have hp := hwf ind (getIndividual_mem hind) pr hpr
    rcases Option.isSome_iff_exists.mp hp with ⟨p, hpp⟩
    unfold propAllowed at hall
    rw [hpp] at hall
    exact ⟨ind, pr, p, hind, hpr, hpp, eq_of_beq hall, hmem⟩
  · rintro ⟨ind, pr, p, hind, hpr, hpp, hkind, hmem⟩
    refine ⟨ind, pr, hind, hpr, ?_, hmem⟩
    unfold propAllowed
    rw [hpp]
    simp [hkind]

theorem isPath_congr {r r2 : Iri → Iri → Prop} (h : ∀ a b, r a b ↔ r2 a b)
    {s e : Iri} {p : List Iri} : IsPath r s e p ↔ IsPath r2 s e p := by
  unfold IsPath
  constructor <;> rintro ⟨h1, h2, h3⟩
  · exact ⟨h1, h2, h3.imp (fun a b => (h a b).mp)⟩
  · exact ⟨h1, h2, h3.imp (fun a b => (h a b).mpr)⟩

/-- Claim C2 (amended): with both the `property_paths` and the
`property_assertions` toggles on, `shortest_path` on a stored ontology errors
when an endpoint individual is missing (start checked first), and otherwise
returns a minimum-hop path over the graph of `Individual`-variant assertions
under `Object`-kind properties, inclusive of both endpoints, or `None` when
the goal is unreachable. -/
theorem shortest_path_characterization (settings : ReasonerSettings)
    (store : Store) (ont a b : Iri) (o : Ontology)
    (hpp : settings.inference.property_paths = true)
    (hpa : settings.inference.property_assertions = true)
    (ho : store.lookup ont = some o)
    (hwf : WFassert o) :
    (o.getIndividual a = none →
      shortest_path settings store ont a b = .error (.MissingIndividual o.id a)) ∧
    (∀ src, o.getIndividual a = some src → o.getIndividual b = none →
      shortest_path settings store ont a b = .error (.MissingIndividual o.id b)) ∧
    (∀ src tgt, o.getIndividual a = some src → o.getIndividual b = some tgt →
      ((∃ q, IsPath (objectPropEdge o) a b q) →
        ∃ p, shortest_path settings store ont a b = .ok (some p) ∧
          IsPath (objectPropEdge o) a b p ∧
          ∀ q, IsPath (objectPropEdge o) a b q → p.length ≤ q.length) ∧
      ((¬ ∃ q, IsPath (objectPropEdge o) a b q) →
        shortest_path settings store ont a b = .ok none)) := by
  refine ⟨?_, ?_, ?_⟩
  · intro h
    simp [shortest_path, hpp, ho, h]
  · intro src hsrc hb
    simp [shortest_path, hpp, ho, hsrc, hb]
  · intro src tgt hsrc htgt
    have hid : src.id = a := getIndividual_id hsrc
    have hterm := pathLoop_terminates true o b (pathFuel o) [src.id]
      [(src.id, [src.id])]
      (by
        have := List.countP_le_length (fun t => decide (t ∉ [src.id]))
          (l := allTargets o)
        simp only [cntUnvisited, pathFuel, List.length_cons, List.length_nil]
        omega)
    rcases Option.isSome_iff_exists.mp hterm with ⟨r, hr⟩
    rw [hid] at hr
    have inv0 := bfsInv_initial o a b
    have hiff : ∀ p, IsPath (objectEdge o) a b p ↔ IsPath (objectPropEdge o) a b p :=
      fun _ => isPath_congr (objectEdge_iff hwf)
    have hres : shortest_path settings store ont a b =
        match pathLoop true o b (pathFuel o) [a] [(a, [a])] with
        | some r => .ok r
        | none => .ok none := by
      simp [shortest_path, hpp, hpa, ho, hsrc, htgt, hid]
    cases r with
    | none =>
      have hnone := pathLoop_none _ _ _ hr inv0
      constructor
      · rintro ⟨q, hq⟩
        exact absurd ⟨q, (hiff q).mpr hq⟩ hnone
      · intro _
        rw [hres, hr]
    | some p =>
      rcases pathLoop_some _ _ _ p hr inv0 with ⟨hpathp, hmin⟩
      constructor
      · intro _
        refine ⟨p, ?_, (hiff p).mp hpathp, ?_⟩
        · rw [hres, hr]
        · intro q hq
          exact hmin q ((hiff q).mpr hq)
      · intro hnex
        exact absurd ⟨p, (hiff p).mp hpathp⟩ hnex

theorem alice_bob_edge_path :
    IsPath (objectPropEdge peopleO) "https://example.org/alice"
      "https://example.org/bob"
      ["https://example.org/alice", "https://example.org/bob"] := by
  refine ⟨rfl, rfl, List.chain'_pair.mpr ?_⟩
  refine ⟨aliceInd,
    ("https://example.org/link", [.Individual "https://example.org/bob"]),
    linkProp, rfl, ?_, rfl, rfl, ?_⟩
  · simp [aliceInd]
  · simp

theorem shortest_path_characterization_witness :
    ∃ p, shortest_path allOn peopleStore "https://example.org/onto"
        "https://example.org/alice" "https://example.org/bob" = .ok (some p) ∧
      IsPath (objectPropEdge peopleO) "https://example.org/alice"
        "https://example.org/bob" p ∧
      ∀ q, IsPath (objectPropEdge peopleO) "https://example.org/alice"
        "https://example.org/bob" q → p.length ≤ q.length :=
  ((shortest_path_characterization allOn peopleStore "https://example.org/onto"
      "https://example.org/alice" "https://example.org/bob" peopleO
      rfl rfl rfl (by unfold WFassert; decide)).2.2 aliceInd bobInd rfl rfl).1
    ⟨_, alice_bob_edge_path⟩

/-- Claim C2 counterexample: with only the `property_paths` toggle on (the
claim's stated precondition) and `property_assertions` off, the stored edge
from `alice` to `bob` exists in the specification graph, yet `shortest_path`
returns `ok none` instead of a minimum-hop path. -/
theorem shortest_path_not_gated_by_paths_alone :
    paOff.inference.property_paths = true ∧
    IsPath (objectPropEdge peopleO) "https://example.org/alice"
      "https://example.org/bob"
      ["https://example.org/alice", "https://example.org/bob"] ∧
    shortest_path paOff peopleStore "https://example.org/onto"
      "https://example.org/alice" "https://example.org/bob" = .ok none :=
  ⟨rfl, alice_bob_edge_path, rfl⟩

end Loco
